import Mathlib

/-!
Verification of the blacksky repository's identifier engine
(`src/rsky-syntax/src/aturi.rs`) and archive encoder
(`src/rsky-pds/src/car.rs`).

Strings are modelled as `List Char`; bytes as `Nat` (values < 256 where
produced).  The two Rust regexes are embedded as hand-rolled matchers with
leftmost-first (Perl-style) preference semantics.  Every quantifier in the
source regexes ranges over a character class that excludes every character
able to begin the remainder of the pattern (and the end of input), so a
greedy, non-backtracking scan inside each quantifier is extensionally equal
to the backtracking semantics; backtracking is kept where it is observable,
namely at the optional `at://` prefix and at the `did | domain` alternation.
Case-insensitivity (`(?i)`) is modelled as ASCII case folding, and `\s` as
the ASCII whitespace characters.
-/

def chars (s : String) : List Char := s.data

/-- `(?i)[a-z0-9]` under ASCII case folding. -/
def alnumCI (c : Char) : Bool := c.isAlpha || c.isDigit

/-- Characters allowed after `did:` in the did host alternative: `[a-z0-9:%-]` with `(?i)`. -/
def didChar (c : Char) : Bool := alnumCI c || c == ':' || c == '%' || c == '-'

/-- First character of the domain host alternative: `[a-z0-9]` with `(?i)`. -/
def hostFirstChar (c : Char) : Bool := alnumCI c

/-- Subsequent characters of the domain host alternative: `[a-z0-9.:-]` with `(?i)`. -/
def hostRestChar (c : Char) : Bool := alnumCI c || c == '.' || c == ':' || c == '-'

/-- The regex whitespace class `\s` (ASCII part). -/
def wsChar (c : Char) : Bool :=
  c == ' ' || c == '\t' || c == '\n' || c == '\r' || c == '\x0b' || c == '\x0c'

/-- Path characters: `[^?#\s]`. -/
def pathChar (c : Char) : Bool := !(c == '?' || c == '#' || wsChar c)

/-- Query characters: `[^#\s]`. -/
def queryChar (c : Char) : Bool := !(c == '#' || wsChar c)

/-- Fragment characters: `[^\s]`. -/
def fragChar (c : Char) : Bool := !(wsChar c)

/-- Case-insensitive "begins with the pattern" test (first arg is the pattern). -/
def ciStarts : List Char → List Char → Bool
  | [], _ => true
  | _ :: _, [] => false
  | p :: ps, c :: cs => (p.toLower == c.toLower) && ciStarts ps cs

/-- The did alternative `did:[a-z0-9:%-]+` of the host group: on success returns
the captured host text and the unconsumed remainder. -/
def didSplit (s : List Char) : Option (List Char × List Char) :=
  if ciStarts (chars "did:") s then
    let run := (s.drop 4).takeWhile didChar
    let rest := (s.drop 4).dropWhile didChar
    if run.isEmpty then none else some (s.take 4 ++ run, rest)
  else none

/-- The domain alternative `[a-z0-9][a-z0-9.:-]*` of the host group. -/
def domSplit : List Char → Option (List Char × List Char)
  | [] => none
  | c :: t =>
    if hostFirstChar c then some (c :: t.takeWhile hostRestChar, t.dropWhile hostRestChar)
    else none

/-- The optional path group `(/[^?#\s]*)?`: returns the capture (possibly empty)
and the remainder.  When the input starts with `/` the group matches; if the
continuation then fails, skipping the group cannot succeed either (the
remainder would still start with `/`), so no backtracking is needed. -/
def pathOpt : List Char → List Char × List Char
  | '/' :: t => ('/' :: t.takeWhile pathChar, t.dropWhile pathChar)
  | s => ([], s)

/-- The optional query group `(\?[^#\s]+)?`.  If the input starts with `?` but
no query character follows, the whole match fails: skipping the group leaves a
`?` that neither the fragment group nor the anchor can consume. -/
def queryOpt : List Char → Option (List Char × List Char)
  | '?' :: t =>
    let run := t.takeWhile queryChar
    if run.isEmpty then none else some ('?' :: run, t.dropWhile queryChar)
  | s => some (([] : List Char), s)

/-- The optional fragment group `(#[^\s]+)?` followed by the end anchor `$`. -/
def fragEnd : List Char → Option (List Char)
  | [] => some []
  | '#' :: t =>
    let run := t.takeWhile fragChar
    if run.isEmpty || !(t.dropWhile fragChar).isEmpty then none else some ('#' :: run)
  | _ => none

/-- Path, query and fragment groups followed by the end anchor. -/
def pathQF (s : List Char) : Option (List Char × List Char × List Char) :=
  let pr := pathOpt s
  (queryOpt pr.2).bind fun qr =>
    (fragEnd qr.2).map fun f => (pr.1, qr.1, f)

/-- Host group, then path/query/fragment and the anchor.  The did alternative
is preferred; on its failure (including failure of the continuation) the
domain alternative is tried, matching the regex alternation order. -/
def hostPQF (s : List Char) : Option (List Char × List Char × List Char × List Char) :=
  (match didSplit s with
   | some hr => (pathQF hr.2).map fun pqf => (hr.1, pqf)
   | none => none)
  <|>
  (match domSplit s with
   | some hr => (pathQF hr.2).map fun pqf => (hr.1, pqf)
   | none => none)

/-- The five capture groups of the absolute regex (empty list encodes an
unmatched group, as the Rust code maps unmatched captures to `""`). -/
structure AtpMatch where
  g_at : List Char
  g_host : List Char
  g_path : List Char
  g_query : List Char
  g_frag : List Char
deriving DecidableEq, Repr

/-- Shallow embedding of `atp_uri_regex`:
`(?i)^(at://)?((?:did:[a-z0-9:%-]+)|(?:[a-z0-9][a-z0-9.:-]*))(/[^?#\s]*)?(\?[^#\s]+)?(#[^\s]+)?$`.
The optional scheme marker is tried first; if the rest of the pattern fails
afterwards, the marker-less interpretation is tried. -/
def atp_uri_regex (s : List Char) : Option AtpMatch :=
  (if ciStarts (chars "at://") s then
    (hostPQF (s.drop 5)).map fun m =>
      { g_at := s.take 5, g_host := m.1, g_path := m.2.1, g_query := m.2.2.1, g_frag := m.2.2.2 }
  else none)
  <|>
  (hostPQF s).map fun m =>
    { g_at := [], g_host := m.1, g_path := m.2.1, g_query := m.2.2.1, g_frag := m.2.2.2 }

/-- The three capture groups of the relative regex. -/
structure RelMatch where
  g_path : List Char
  g_query : List Char
  g_frag : List Char
deriving DecidableEq, Repr

/-- Shallow embedding of `relative_regex`: `(?i)^(/[^?#\s]*)?(\?[^#\s]+)?(#[^\s]+)?$`. -/
def relative_regex (s : List Char) : Option RelMatch :=
  (pathQF s).map fun m => { g_path := m.1, g_query := m.2.1, g_frag := m.2.2 }

/-! ### The query-string pipeline

The Rust code builds `http://example.com{query}` and runs it through the
`url` crate, then reads `query_pairs()`.  The URL parser canonicalizes the
query by percent-encoding the characters of the WHATWG query encode set
(UTF-8 based); `query_pairs()` then applies `form_urlencoded` decoding:
split on `&`, drop empty pieces, split each piece at the first `=`,
replace `+` by space and percent-decode at the byte level, and decode the
resulting bytes as UTF-8 (lossily). -/

/-- UTF-8 encoding of one scalar value. -/
def utf8Bytes (c : Char) : List Nat :=
  let n := c.toNat
  if n < 0x80 then [n]
  else if n < 0x800 then [0xC0 + n / 64, 0x80 + n % 64]
  else if n < 0x10000 then [0xE0 + n / 4096, 0x80 + n / 64 % 64, 0x80 + n % 64]
  else [0xF0 + n / 262144, 0x80 + n / 4096 % 64, 0x80 + n / 64 % 64, 0x80 + n % 64]

def strBytes (s : List Char) : List Nat := s.flatMap utf8Bytes

def replChar : Char := Char.ofNat 0xFFFD

def isCont (b : Nat) : Bool := decide (0x80 ≤ b) && decide (b ≤ 0xBF)

/-- One UTF-8 decoding step (models `String::from_utf8_lossy`; the exact
replacement granularity for invalid sequences is irrelevant here because only
valid sequences are ever decoded in the proofs): given the lead byte and the
following bytes, produce a scalar (or the replacement character) and the
number of continuation bytes consumed. -/
def utf8Step (b : Nat) (bs : List Nat) : Char × Nat :=
  if b < 0x80 then (Char.ofNat b, 0)
  else if 0xC2 ≤ b && b ≤ 0xDF then
    match bs with
    | b2 :: _ =>
      if isCont b2 then (Char.ofNat ((b - 0xC0) * 64 + (b2 - 0x80)), 1) else (replChar, 0)
    | _ => (replChar, 0)
  else if 0xE0 ≤ b && b ≤ 0xEF then
    match bs with
    | b2 :: b3 :: _ =>
      if isCont b2 && isCont b3 && (!(b == 0xE0) || decide (0xA0 ≤ b2))
          && (!(b == 0xED) || decide (b2 ≤ 0x9F)) then
        (Char.ofNat ((b - 0xE0) * 4096 + (b2 - 0x80) * 64 + (b3 - 0x80)), 2)
      else (replChar, 0)
    | _ => (replChar, 0)
  else if 0xF0 ≤ b && b ≤ 0xF4 then
    match bs with
    | b2 :: b3 :: b4 :: _ =>
      if isCont b2 && isCont b3 && isCont b4 && (!(b == 0xF0) || decide (0x90 ≤ b2))
          && (!(b == 0xF4) || decide (b2 ≤ 0x8F)) then
        (Char.ofNat ((b - 0xF0) * 262144 + (b2 - 0x80) * 4096 + (b3 - 0x80) * 64 + (b4 - 0x80)),
          3)
      else (replChar, 0)
    | _ => (replChar, 0)
  else (replChar, 0)

/-- UTF-8 decoding with replacement of invalid sequences (fuelled so that the
definition is structurally recursive; the fuel never runs out because each step
consumes at least the lead byte). -/
def utf8DecodeF : Nat → List Nat → List Char
  | 0, _ => []
  | _, [] => []
  | fuel + 1, b :: bs => (utf8Step b bs).1 :: utf8DecodeF fuel (bs.drop (utf8Step b bs).2)

def utf8Decode (bs : List Nat) : List Char := utf8DecodeF bs.length bs

def isHexByte (b : Nat) : Bool :=
  (decide (0x30 ≤ b) && decide (b ≤ 0x39)) || (decide (0x41 ≤ b) && decide (b ≤ 0x46)) ||
  (decide (0x61 ≤ b) && decide (b ≤ 0x66))

def hexVal (b : Nat) : Nat := if b ≤ 0x39 then b - 0x30 else if b ≤ 0x46 then b - 0x37 else b - 0x57

/-- Byte-level percent decoding (`percent_encoding::percent_decode`): a `%`
followed by two hex digits becomes the encoded byte, otherwise bytes pass
through unchanged. -/
def percentDecodeBytes : List Nat → List Nat
  | [] => []
  | 0x25 :: b1 :: b2 :: rest =>
    if isHexByte b1 && isHexByte b2 then
      (hexVal b1 * 16 + hexVal b2) :: percentDecodeBytes rest
    else 0x25 :: percentDecodeBytes (b1 :: b2 :: rest)
  | b :: rest => b :: percentDecodeBytes rest

def plusToSpace (bs : List Nat) : List Nat := bs.map fun b => if b == 0x2B then 0x20 else b

/-- `form_urlencoded` decoding of one key or value. -/
def formDecodeStr (s : List Char) : List Char :=
  utf8Decode (percentDecodeBytes (plusToSpace (strBytes s)))

/-- Split on a separator character; like Rust's `str::split`, the result is
never empty (splitting the empty string yields one empty piece). -/
def splitSep (sep : Char) : List Char → List (List Char)
  | [] => [[]]
  | c :: t =>
    if c == sep then [] :: splitSep sep t
    else
      match splitSep sep t with
      | [] => [[c]]
      | h :: r => (c :: h) :: r

def joinSep (sep : Char) : List (List Char) → List Char
  | [] => []
  | [x] => x
  | x :: xs => x ++ sep :: joinSep sep xs

/-- Split at the first `=`, as `form_urlencoded` does for one `&`-piece. -/
def splitFirstEq : List Char → List Char × Option (List Char)
  | [] => ([], none)
  | '=' :: t => ([], some t)
  | c :: t =>
    let kv := splitFirstEq t
    (c :: kv.1, kv.2)

/-- `form_urlencoded::parse` over a query string (without its `?`). -/
def formDecodePairs (q : List Char) : List (List Char × List Char) :=
  ((splitSep '&' q).filter fun p => !p.isEmpty).map fun piece =>
    match splitFirstEq piece with
    | (k, some v) => (formDecodeStr k, formDecodeStr v)
    | (k, none) => (formDecodeStr k, [])

def hexDigitChar (d : Nat) : Char := if d < 10 then Char.ofNat (0x30 + d) else Char.ofNat (0x37 + d)

/-- The WHATWG query percent-encode set for special schemes: C0 controls and
non-ASCII, space, `"`, `<`, `>`, `'` (`#` cannot occur in the inputs used). -/
def queryEncodeSet (c : Char) : Bool :=
  decide (c.toNat < 0x20) || decide (0x7E < c.toNat) ||
  c == ' ' || c == '"' || c == '<' || c == '>' || c == '\''

def percentEncodeChar (c : Char) : List Char :=
  (utf8Bytes c).flatMap fun b => ['%', hexDigitChar (b / 16), hexDigitChar (b % 16)]

/-- Canonicalization the `url` crate applies to a query while parsing. -/
def canonicalizeQuery (s : List Char) : List Char :=
  s.flatMap fun c => if queryEncodeSet c then percentEncodeChar c else [c]

/-- `url.query_pairs()` of the dummy URL `http://example.com{capture}`, where
`capture` is the (possibly empty) query capture including its `?`.  With an
empty capture the dummy URL has no query and the pair list is empty; the
`Url::parse` call cannot fail on these inputs, so the `Result` wrapper of the
Rust code is not represented. -/
def queryPairsOfCapture : List Char → List (List Char × List Char)
  | [] => []
  | _ :: qs => formDecodePairs (canonicalizeQuery qs)

/-- Bytes the `form_urlencoded` serializer leaves unencoded: ASCII
alphanumerics and `*`, `-`, `.`, `_`. -/
def unreservedByte (b : Nat) : Bool :=
  (decide (0x30 ≤ b) && decide (b ≤ 0x39)) || (decide (0x41 ≤ b) && decide (b ≤ 0x5A)) ||
  (decide (0x61 ≤ b) && decide (b ≤ 0x7A)) || b == 0x2A || b == 0x2D || b == 0x2E || b == 0x5F

/-- `form_urlencoded` byte serialization: unreserved bytes stay, space becomes
`+`, everything else becomes `%XX` with uppercase hex. -/
def formEncodeByte (b : Nat) : List Char :=
  if unreservedByte b then [Char.ofNat b]
  else if b == 0x20 then ['+']
  else ['%', hexDigitChar (b / 16), hexDigitChar (b % 16)]

def formEncodeStr (s : List Char) : List Char := (strBytes s).flatMap formEncodeByte

/-- The `form_urlencoded::Serializer`: `key=value` pieces joined by `&`. -/
def serializePairs (ps : List (List Char × List Char)) : List Char :=
  joinSep '&' (ps.map fun kv => formEncodeStr kv.1 ++ '=' :: formEncodeStr kv.2)

/-! ### The `AtUri` data type and its operations -/

structure ParsedOutput where
  hash : List Char
  host : List Char
  pathname : List Char
  search_params : List (List Char × List Char)
deriving DecidableEq, Repr

structure ParsedRelativeOutput where
  hash : List Char
  pathname : List Char
  search_params : List (List Char × List Char)
deriving DecidableEq, Repr

structure AtUri where
  hash : List Char
  host : List Char
  pathname : List Char
  search_params : List (List Char × List Char)
deriving DecidableEq, Repr

/-- `parse`: absolute grammar match, with the query capture decomposed through
the dummy-URL pipeline.  `hash` is capture 4 (including its `#`), `host`
capture 1, `pathname` capture 2 (including its leading `/`). -/
def parse (s : List Char) : Option ParsedOutput :=
  (atp_uri_regex s).map fun m =>
    { hash := m.g_frag, host := m.g_host, pathname := m.g_path,
      search_params := queryPairsOfCapture m.g_query }

/-- `parse_relative`: relative grammar match; captures shift down by one. -/
def parse_relative (s : List Char) : Option ParsedRelativeOutput :=
  (relative_regex s).map fun m =>
    { hash := m.g_frag, pathname := m.g_path,
      search_params := queryPairsOfCapture m.g_query }

def invalidUriMsg (s : List Char) : List Char := chars "Invalid at uri: `" ++ s ++ chars "`"

def invalidPathMsg (s : List Char) : List Char := chars "Invalid path: `" ++ s ++ chars "`"

/-- `AtUri::new`: with a base, the base must parse absolutely and the uri
relatively; the host comes from the base and the rest from the relative
parse.  Without a base the uri must parse absolutely. -/
def AtUri.new (uri : List Char) (base : Option (List Char)) : Except (List Char) AtUri :=
  match base with
  | some b =>
    match parse b with
    | none => .error (invalidUriMsg b)
    | some pb =>
      match parse_relative uri with
      | none => .error (invalidPathMsg uri)
      | some rp =>
        .ok { hash := rp.hash, host := pb.host, pathname := rp.pathname,
              search_params := rp.search_params }
  | none =>
    match parse uri with
    | none => .error (invalidUriMsg uri)
    | some r =>
      .ok { hash := r.hash, host := r.host, pathname := r.pathname,
            search_params := r.search_params }

/-- `AtUri::make`: concatenates authority, `/collection`, `/rkey` (each if
present) and delegates to `new` with no base. -/
def AtUri.make (handle_or_did : List Char) (collection rkey : Option (List Char)) :
    Except (List Char) AtUri :=
  let s1 := match collection with
    | some c => handle_or_did ++ '/' :: c
    | none => handle_or_did
  let s2 := match rkey with
    | some r => s1 ++ '/' :: r
    | none => s1
  AtUri.new s2 none

def AtUri.get_collection (u : AtUri) : List Char := ((splitSep '/' u.pathname)[1]?).getD []

/-- `set_collection`: overwrite the first `/`-piece; the `else` push branch is
kept although `split` never yields an empty vector. -/
def AtUri.set_collection (u : AtUri) (v : List Char) : AtUri :=
  let parts := splitSep '/' u.pathname
  let parts1 := if parts.length > 0 then parts.set 0 v else parts ++ [v]
  { u with pathname := joinSep '/' parts1 }

def AtUri.get_rkey (u : AtUri) : List Char := ((splitSep '/' u.pathname)[2]?).getD []

/-- `set_rkey`: overwrite the second `/`-piece, else push; the final branch
pushing the `"undefined"` placeholder is kept although `split` never yields an
empty vector. -/
def AtUri.set_rkey (u : AtUri) (v : List Char) : AtUri :=
  let parts := splitSep '/' u.pathname
  let parts1 :=
    if parts.length > 1 then parts.set 1 v
    else if parts.length > 0 then parts ++ [v]
    else parts ++ [chars "undefined"] ++ [v]
  { u with pathname := joinSep '/' parts1 }

/-- `get_search`: `Url::parse_with_params("http://example.com", params)`
serializes the pairs into the query; the resulting `url.query()` is always
`Some` (the serializer installs a `?` even for an empty pair list), and the
`Result` wrapper cannot fail, so the model returns the inner `Option`. -/
def AtUri.get_search (u : AtUri) : Option (List Char) := some (serializePairs u.search_params)

/-- Forbidden host characters of the WHATWG URL parser for special schemes
(`%` included, as hosts are domains here). -/
def forbiddenHostChar (c : Char) : Bool :=
  c == '\x00' || c == '\t' || c == '\n' || c == '\r' || c == ' ' || c == '#' ||
  c == '/' || c == '<' || c == '>' || c == '?' || c == '@' || c == '[' ||
  c == '\\' || c == ']' || c == '^' || c == '|' || c == '%'

/-- Query of `Url::parse ("http://example.com" ++ v)`, modelling the `url`
crate: `v` first extends the authority up to the first `/`, `?`, `#` or `\`
(failing on forbidden host characters or a non-numeric port), then a path up
to the first `?` or `#`, then an optional `?`-query running to the first `#`
(canonicalized), then a fragment.  `none` models a parse error, `some none` a
URL without a query. -/
def dummyUrlQuery (v : List Char) : Option (Option (List Char)) :=
  let auth := v.takeWhile fun c => !(c == '/' || c == '?' || c == '#' || c == '\\')
  let rest := v.drop auth.length
  if auth.any forbiddenHostChar then none
  else
    let hostPart := auth.takeWhile fun c => !(c == ':')
    let portPart := auth.drop (hostPart.length + 1)
    if (auth.any fun c => c == ':') && (portPart.any fun c => !c.isDigit) then none
    else
      match rest.dropWhile fun c => !(c == '?' || c == '#') with
      | '?' :: qf => some (some (canonicalizeQuery (qf.takeWhile fun c => !(c == '#'))))
      | _ => some none

/-- `set_search`: parse `http://example.com{v}` and take its decoded query
pairs (empty when the URL has no query); `none` models the propagated URL
parse error. -/
def AtUri.set_search (u : AtUri) (v : List Char) : Option AtUri :=
  match dummyUrlQuery v with
  | none => none
  | some none => some { u with search_params := [] }
  | some (some q) => some { u with search_params := formDecodePairs q }

/-- The `Display` implementation: `at://` + host + path + query + fragment,
with the source's normalization steps reproduced verbatim. -/
def AtUri.to_string (u : AtUri) : List Char :=
  let path0 := if u.pathname == [] then chars "/" else u.pathname
  let path := if path0.take 1 == ['/'] then path0 else '/' :: path0
  let qs :=
    match u.get_search with
    | some sp => if !(sp.take 1 == ['?']) && !(sp == []) then '?' :: sp else sp
    | none => []
  let hash := if u.hash == [] then u.hash else '#' :: u.hash
  chars "at://" ++ u.host ++ path ++ qs ++ hash

/-! ### The archive (CAR) encoder

`read_car_bytes` in `src/rsky-pds/src/car.rs` delegates framing to the
repository's vendored `iroh_car` writer and the `BlockMap` store, whose
sources are not part of the excerpt; both are modelled from the spec below.
-/

/-- Modelled from the spec: a content identifier is "opaque, self-describing,
supports equality and a canonical binary encoding" — a version, a content
codec, and a multihash (hash type plus digest bytes). -/
structure Cid where
  version : Nat
  codec : Nat
  mh_type : Nat
  digest : List Nat
deriving DecidableEq, Repr

/-- Unsigned little-endian base-128 varint (the spec's "unsigned
variable-length integer, little-endian base-128"); fuelled so that the
definition is structurally recursive, `n` itself being ample fuel. -/
def varintF : Nat → Nat → List Nat
  | 0, n => [n % 0x80]
  | fuel + 1, n => if n < 0x80 then [n] else (n % 0x80 + 0x80) :: varintF fuel (n / 0x80)

def varint (n : Nat) : List Nat := varintF n n

/-- Modelled from the spec: the canonical binary encoding of a content
identifier — varint version, varint codec, then the multihash as varint hash
type, varint digest length, digest bytes. -/
def cidBytes (c : Cid) : List Nat :=
  varint c.version ++ varint c.codec ++ varint c.mh_type ++
    varint c.digest.length ++ c.digest

/-- CBOR head for a major type and argument. -/
def cborHead (major n : Nat) : List Nat :=
  if n < 24 then [32 * major + n]
  else if n < 0x100 then [32 * major + 24, n]
  else if n < 0x10000 then [32 * major + 25, n / 0x100, n % 0x100]
  else if n < 0x100000000 then
    [32 * major + 26, n / 0x1000000 % 0x100, n / 0x10000 % 0x100, n / 0x100 % 0x100, n % 0x100]
  else
    [32 * major + 27, n / 0x100000000000000 % 0x100, n / 0x1000000000000 % 0x100,
      n / 0x10000000000 % 0x100, n / 0x100000000 % 0x100, n / 0x1000000 % 0x100,
      n / 0x10000 % 0x100, n / 0x100 % 0x100, n % 0x100]

def asciiBytes (s : List Char) : List Nat := s.map Char.toNat

/-- Modelled from the spec: the header payload is the "compact self-describing
structure `{version: 1, roots: [root]}`" — DAG-CBOR: a two-entry map with key
`roots` mapping to a one-element array holding the tag-42 CID (a byte string
of `0x00` plus the CID bytes) and key `version` mapping to 1. -/
def headerPayload (root : Cid) : List Nat :=
  [0xA2] ++ cborHead 3 5 ++ asciiBytes (chars "roots") ++
  [0x81, 0xD8, 0x2A] ++ cborHead 2 ((cidBytes root).length + 1) ++ 0x00 :: cidBytes root ++
  cborHead 3 7 ++ asciiBytes (chars "version") ++ [0x01]

/-- A length-prefixed record: varint byte count, then that many bytes. -/
def lengthPrefixed (bs : List Nat) : List Nat := varint bs.length ++ bs

/-- A block record's payload: "the content identifier's binary form
immediately followed by the raw block bytes with no separator". -/
def blockBytes (b : Cid × List Nat) : List Nat := cidBytes b.1 ++ b.2

/-- `read_car_bytes`: header record, then one block record per entry of the
block map, in the order supplied.  Modelled from the spec: the `BlockMap` is
its `entries()` sequence of (identifier, bytes) pairs, and the vendored
`CarWriter` emits the length-prefixed header and block records. -/
def read_car_bytes (root : Cid) (blocks : List (Cid × List Nat)) : List Nat :=
  lengthPrefixed (headerPayload root) ++
    (blocks.map fun b => lengthPrefixed (blockBytes b)).flatten

/-- Varint decoder: returns the value and the remaining bytes. -/
def decodeVarint : List Nat → Option (Nat × List Nat)
  | [] => none
  | b :: rest =>
    if b < 0x80 then some (b, rest)
    else (decodeVarint rest).map fun p => (p.1 * 0x80 + (b - 0x80), p.2)

/-- Read one length-prefixed record. -/
def readRecord (bs : List Nat) : Option (List Nat × List Nat) :=
  (decodeVarint bs).bind fun p =>
    if p.1 ≤ p.2.length then some (p.2.take p.1, p.2.drop p.1) else none

/-- Split a byte stream into its length-prefixed records (fuelled loop). -/
def recordStreamF : Nat → List Nat → Option (List (List Nat))
  | _, [] => some []
  | 0, _ :: _ => none
  | fuel + 1, b :: bs =>
    (readRecord (b :: bs)).bind fun p => (recordStreamF fuel p.2).map fun rs => p.1 :: rs

def recordStream (bs : List Nat) : Option (List (List Nat)) := recordStreamF bs.length bs

/-- Match a literal byte sequence at the front. -/
def stripBytes : List Nat → List Nat → Option (List Nat)
  | [], bs => some bs
  | p :: ps, b :: bs => if b == p then stripBytes ps bs else none
  | _ :: _, [] => none

/-- Read big-endian integers of 1, 2, 4 or 8 bytes. -/
def read1 : List Nat → Option (Nat × List Nat)
  | n :: r => some (n, r)
  | [] => none

def read2 : List Nat → Option (Nat × List Nat)
  | n1 :: n2 :: r => some (n1 * 0x100 + n2, r)
  | _ => none

def read4 : List Nat → Option (Nat × List Nat)
  | n1 :: n2 :: n3 :: n4 :: r => some (((n1 * 0x100 + n2) * 0x100 + n3) * 0x100 + n4, r)
  | _ => none

def read8 : List Nat → Option (Nat × List Nat)
  | n1 :: n2 :: n3 :: n4 :: n5 :: n6 :: n7 :: n8 :: r =>
    some (((((((n1 * 0x100 + n2) * 0x100 + n3) * 0x100 + n4) * 0x100 + n5) * 0x100 + n6)
      * 0x100 + n7) * 0x100 + n8, r)
  | _ => none

/-- Decode a CBOR head of the given major type. -/
def decodeCborHead (major : Nat) : List Nat → Option (Nat × List Nat)
  | [] => none
  | b :: rest =>
    if b == 32 * major + 24 then read1 rest
    else if b == 32 * major + 25 then read2 rest
    else if b == 32 * major + 26 then read4 rest
    else if b == 32 * major + 27 then read8 rest
    else if 32 * major ≤ b && b < 32 * major + 24 then some (b - 32 * major, rest)
    else none

/-- Decode a content identifier from the front of a byte stream. -/
def decodeCid (bs : List Nat) : Option (Cid × List Nat) :=
  (decodeVarint bs).bind fun pv =>
  (decodeVarint pv.2).bind fun pc =>
  (decodeVarint pc.2).bind fun pm =>
  (decodeVarint pm.2).bind fun pl =>
  if pl.1 ≤ pl.2.length then
    some ({ version := pv.1, codec := pc.1, mh_type := pm.1, digest := pl.2.take pl.1 },
      pl.2.drop pl.1)
  else none

/-- Decode the header payload: returns the declared version and roots list. -/
def decodeHeader (bs : List Nat) : Option (Nat × List Cid) :=
  (stripBytes ([0xA2] ++ cborHead 3 5 ++ asciiBytes (chars "roots") ++ [0x81, 0xD8, 0x2A]) bs).bind
    fun r1 =>
  (decodeCborHead 2 r1).bind fun pn =>
  match pn.1, pn.2 with
  | n + 1, 0x00 :: r2 =>
    if n ≤ r2.length then
      match decodeCid (r2.take n) with
      | some (c, []) =>
        (stripBytes (cborHead 3 7 ++ asciiBytes (chars "version")) (r2.drop n)).bind fun r3 =>
        match r3 with
        | [v] => if v < 24 then some (v, [c]) else none
        | _ => none
      | _ => none
    else none
  | _, _ => none

/-- Decode a block record payload into its identifier and bytes. -/
def decodeBlockRecord (r : List Nat) : Option (Cid × List Nat) := decodeCid r

/-- A conformant reader of the container: split records, interpret the first
as the header (requiring version 1 and a single root), the rest as blocks. -/
def decodeCar (bs : List Nat) : Option (Cid × List (Cid × List Nat)) :=
  match recordStream bs with
  | some (h :: rs) =>
    (decodeHeader h).bind fun pv =>
    match pv with
    | (1, [root]) => (rs.mapM decodeBlockRecord).map fun bl => (root, bl)
    | _ => none
  | _ => none

/-! ### Shape predicates for the capture groups -/

/-- Hosts matched by the did alternative. -/
def didShaped (h : List Char) : Prop :=
  ciStarts (chars "did:") h ∧ h.drop 4 ≠ [] ∧ ∀ c ∈ h.drop 4, didChar c

/-- Hosts matched by the domain alternative. -/
def domShaped (h : List Char) : Prop :=
  ∃ c t, h = c :: t ∧ hostFirstChar c ∧ ∀ x ∈ t, hostRestChar x

def hostShaped (h : List Char) : Prop := didShaped h ∨ domShaped h

def pathShaped (p : List Char) : Prop := p = [] ∨ ∃ t, p = '/' :: t ∧ ∀ c ∈ t, pathChar c

def queryShaped (q : List Char) : Prop :=
  q = [] ∨ ∃ t, q = '?' :: t ∧ t ≠ [] ∧ ∀ c ∈ t, queryChar c

def fragShaped (f : List Char) : Prop :=
  f = [] ∨ ∃ t, f = '#' :: t ∧ t ≠ [] ∧ ∀ c ∈ t, fragChar c

/-- The remainder after the host group may only begin with `/`, `?` or `#`
(or be empty). -/
def boundaryHead : List Char → Prop
  | [] => True
  | c :: _ => c = '/' ∨ c = '?' ∨ c = '#'

/-- Whether `pat` occurs contiguously inside `s`. -/
def startsWithSeq : List Char → List Char → Bool
  | [], _ => true
  | _ :: _, [] => false
  | p :: ps, c :: cs => p == c && startsWithSeq ps cs

def containsSeq (pat : List Char) : List Char → Bool
  | [] => pat.isEmpty
  | c :: t => startsWithSeq pat (c :: t) || containsSeq pat t

/-! ### List helpers -/

theorem takeWhile_append_all {p : Char → Bool} {l : List Char} (r : List Char)
    (h : ∀ c ∈ l, p c) : (l ++ r).takeWhile p = l ++ r.takeWhile p := by
  induction l with
  | nil => rfl
  | cons a t ih =>
    have ih' := ih fun c hc => h c (by simp [hc])
    simp [List.takeWhile_cons, h a (by simp), ih']

theorem dropWhile_append_all {p : Char → Bool} {l : List Char} (r : List Char)
    (h : ∀ c ∈ l, p c) : (l ++ r).dropWhile p = r.dropWhile p := by
  induction l with
  | nil => rfl
  | cons a t ih =>
    simp only [List.cons_append, List.dropWhile_cons, h a (by simp)]
    exact ih fun c hc => h c (by simp [hc])

theorem takeWhile_nil_of_head {p : Char → Bool} {r : List Char}
    (h : boundaryHead r) (hp : ∀ c, (c = '/' ∨ c = '?' ∨ c = '#') → p c = false) :
    r.takeWhile p = [] := by
  cases r with
  | nil => rfl
  | cons c t => simp [List.takeWhile_cons, hp c h]

theorem dropWhile_id_of_head {p : Char → Bool} {r : List Char}
    (h : boundaryHead r) (hp : ∀ c, (c = '/' ∨ c = '?' ∨ c = '#') → p c = false) :
    r.dropWhile p = r := by
  cases r with
  | nil => rfl
  | cons c t => simp [List.dropWhile_cons, hp c h]

/-! ### splitSep / joinSep -/

theorem splitSep_ne_nil (sep : Char) (s : List Char) : splitSep sep s ≠ [] := by
  cases s with
  | nil => exact fun h => nomatch h
  | cons c t =>
    simp only [splitSep]
    split
    · simp
    · split <;> simp

theorem splitSep_no_sep {sep : Char} {a : List Char} (h : ∀ c ∈ a, c ≠ sep) :
    splitSep sep a = [a] := by
  induction a with
  | nil => rfl
  | cons c t ih =>
    have hc : (c == sep) = false := by
      simp only [beq_eq_false_iff_ne]
      exact h c (by simp)
    simp only [splitSep, hc, Bool.false_eq_true, if_false]
    rw [ih fun x hx => h x (by simp [hx])]

theorem splitSep_append_sep {sep : Char} {a : List Char} (b : List Char)
    (h : ∀ c ∈ a, c ≠ sep) : splitSep sep (a ++ sep :: b) = a :: splitSep sep b := by
  induction a with
  | nil => simp [splitSep]
  | cons c t ih =>
    have hc : (c == sep) = false := by
      simp only [beq_eq_false_iff_ne]
      exact h c (by simp)
    simp only [List.cons_append, splitSep, hc, Bool.false_eq_true, if_false]
    rw [List.append_eq, ih fun x hx => h x (by simp [hx])]

theorem splitSep_joinSep {sep : Char} {l : List (List Char)} (hne : l ≠ [])
    (h : ∀ a ∈ l, ∀ c ∈ a, c ≠ sep) : splitSep sep (joinSep sep l) = l := by
  induction l with
  | nil => exact absurd rfl hne
  | cons a t ih =>
    cases t with
    | nil => exact splitSep_no_sep (h a (by simp))
    | cons b r =>
      show splitSep sep (a ++ sep :: joinSep sep (b :: r)) = _
      rw [splitSep_append_sep _ (h a (by simp))]
      rw [ih (by simp) fun x hx => h x (by simp [hx])]

/-! ### UTF-8 round trip -/

theorem toNat_ofNat_valid {n : Nat} (h : n.isValidChar) : (Char.ofNat n).toNat = n := by
  unfold Char.ofNat
  rw [dif_pos h]
  rfl

theorem utf8Bytes_lt (c : Char) : ∀ b ∈ utf8Bytes c, b < 256 := by
  have hv0 : c.toNat.isValidChar := c.valid
  have hv : c.toNat < 0x110000 := by
    rcases hv0 with h | h
    · omega
    · exact h.2
  intro b hb
  rcases Nat.lt_or_ge c.toNat 0x80 with h1 | h1
  · rw [show utf8Bytes c = [c.toNat] by simp [utf8Bytes, h1]] at hb
    simp only [List.mem_cons, List.not_mem_nil, or_false] at hb
    omega
  rcases Nat.lt_or_ge c.toNat 0x800 with h2 | h2
  · rw [show utf8Bytes c = [0xC0 + c.toNat / 64, 0x80 + c.toNat % 64] by
      simp only [utf8Bytes]; rw [if_neg (by omega), if_pos h2]] at hb
    simp only [List.mem_cons, List.not_mem_nil, or_false] at hb
    rcases hb with hb | hb <;> omega
  rcases Nat.lt_or_ge c.toNat 0x10000 with h3 | h3
  · rw [show utf8Bytes c = [0xE0 + c.toNat / 4096, 0x80 + c.toNat / 64 % 64, 0x80 + c.toNat % 64]
      by simp only [utf8Bytes]; rw [if_neg (by omega), if_neg (by omega), if_pos h3]] at hb
    simp only [List.mem_cons, List.not_mem_nil, or_false] at hb
    rcases hb with hb | hb | hb <;> omega
  · rw [show utf8Bytes c = [0xF0 + c.toNat / 262144, 0x80 + c.toNat / 4096 % 64,
        0x80 + c.toNat / 64 % 64, 0x80 + c.toNat % 64] by
      simp only [utf8Bytes]; rw [if_neg (by omega), if_neg (by omega), if_neg (by omega)]] at hb
    simp only [List.mem_cons, List.not_mem_nil, or_false] at hb
    rcases hb with hb | hb | hb | hb <;> omega

theorem utf8DecodeF_mono : ∀ f1 f2 bs, bs.length ≤ f1 → bs.length ≤ f2 →
    utf8DecodeF f1 bs = utf8DecodeF f2 bs := by
  intro f1
  induction f1 with
  | zero =>
    intro f2 bs h1 _
    have hbs : bs = [] := List.length_eq_zero.mp (by omega)
    subst hbs
    cases f2 <;> rfl
  | succ g ih =>
    intro f2 bs h1 h2
    cases bs with
    | nil => cases f2 <;> rfl
    | cons b t =>
      simp only [List.length_cons] at h1 h2
      obtain ⟨g2, rfl⟩ : ∃ g2, f2 = g2 + 1 := ⟨f2 - 1, by omega⟩
      show (utf8Step b t).1 :: utf8DecodeF g (t.drop (utf8Step b t).2)
          = (utf8Step b t).1 :: utf8DecodeF g2 (t.drop (utf8Step b t).2)
      rw [ih g2 (t.drop (utf8Step b t).2)
        (by have := List.length_drop (utf8Step b t).2 t; omega)
        (by have := List.length_drop (utf8Step b t).2 t; omega)]

theorem utf8Decode_cons (b : Nat) (bs : List Nat) :
    utf8Decode (b :: bs) = (utf8Step b bs).1 :: utf8Decode (bs.drop (utf8Step b bs).2) := by
  show utf8DecodeF (b :: bs).length (b :: bs) = _
  rw [show (b :: bs).length = bs.length + 1 from rfl]
  show (utf8Step b bs).1 :: utf8DecodeF bs.length (bs.drop (utf8Step b bs).2)
      = (utf8Step b bs).1 :: utf8DecodeF (bs.drop (utf8Step b bs).2).length
          (bs.drop (utf8Step b bs).2)
  rw [utf8DecodeF_mono bs.length (bs.drop (utf8Step b bs).2).length (bs.drop (utf8Step b bs).2)
    (by have := List.length_drop (utf8Step b bs).2 bs; omega) (le_refl _)]

theorem utf8_decode_encode (c : Char) (rest : List Nat) :
    utf8Decode (utf8Bytes c ++ rest) = c :: utf8Decode rest := by
  have hv : c.toNat.isValidChar := c.valid
  have hofn : Char.ofNat c.toNat = c := Char.ofNat_toNat c
  rcases Nat.lt_or_ge c.toNat 0x80 with h1 | h1
  · rw [show utf8Bytes c = [c.toNat] by simp [utf8Bytes, h1]]
    show utf8Decode (c.toNat :: rest) = c :: utf8Decode rest
    rw [utf8Decode_cons, show utf8Step c.toNat rest = (c, 0) by
      simp only [utf8Step]; rw [if_pos h1, hofn]]
    rfl
  rcases Nat.lt_or_ge c.toNat 0x800 with h2 | h2
  · rw [show utf8Bytes c = [0xC0 + c.toNat / 64, 0x80 + c.toNat % 64] by
      simp only [utf8Bytes]; rw [if_neg (by omega), if_pos h2]]
    show utf8Decode ((0xC0 + c.toNat / 64) :: (0x80 + c.toNat % 64) :: rest) = c :: utf8Decode rest
    rw [utf8Decode_cons, show utf8Step (0xC0 + c.toNat / 64) ((0x80 + c.toNat % 64) :: rest)
        = (c, 1) by
      simp only [utf8Step]
      rw [if_neg (by omega), if_pos (by simp only [Bool.and_eq_true, decide_eq_true_eq]; omega)]
      rw [if_pos (by simp only [isCont, Bool.and_eq_true, decide_eq_true_eq]; omega)]
      rw [show (0xC0 + c.toNat / 64 - 0xC0) * 64 + (0x80 + c.toNat % 64 - 0x80) = c.toNat by omega,
        hofn]]
    rfl
  rcases Nat.lt_or_ge c.toNat 0x10000 with h3 | h3
  · have hsur : c.toNat < 0xD800 ∨ 0xDFFF < c.toNat := by
      rcases hv with hv | hv
      · exact Or.inl hv
      · exact Or.inr hv.1
    rw [show utf8Bytes c = [0xE0 + c.toNat / 4096, 0x80 + c.toNat / 64 % 64, 0x80 + c.toNat % 64]
      by simp only [utf8Bytes]; rw [if_neg (by omega), if_neg (by omega), if_pos h3]]
    show utf8Decode ((0xE0 + c.toNat / 4096) :: (0x80 + c.toNat / 64 % 64)
      :: (0x80 + c.toNat % 64) :: rest) = c :: utf8Decode rest
    rw [utf8Decode_cons, show utf8Step (0xE0 + c.toNat / 4096)
        ((0x80 + c.toNat / 64 % 64) :: (0x80 + c.toNat % 64) :: rest) = (c, 2) by
      simp only [utf8Step]
      rw [if_neg (by omega), if_neg (by simp only [Bool.and_eq_true, decide_eq_true_eq]; omega)]
      rw [if_pos (by simp only [Bool.and_eq_true, decide_eq_true_eq]; omega)]
      rw [if_pos]
      · rw [show (0xE0 + c.toNat / 4096 - 0xE0) * 4096 + (0x80 + c.toNat / 64 % 64 - 0x80) * 64
            + (0x80 + c.toNat % 64 - 0x80) = c.toNat by omega, hofn]
      · simp only [isCont, Bool.and_eq_true, Bool.or_eq_true, Bool.not_eq_true',
          beq_eq_false_iff_ne, decide_eq_true_eq, ne_eq]
        refine ⟨⟨⟨⟨by omega, by omega⟩, ⟨by omega, by omega⟩⟩, ?_⟩, ?_⟩
        · rcases Nat.lt_or_ge c.toNat 0x1000 with hx | hx
          · exact Or.inr (by omega)
          · exact Or.inl (by omega)
        · rcases hsur with hs | hs
          · rcases Nat.lt_or_ge c.toNat 0xD000 with hx | hx
            · exact Or.inl (by omega)
            · exact Or.inr (by omega)
          · exact Or.inl (by omega)]
    rfl
  · have h4 : c.toNat < 0x110000 := by
      rcases hv with hv | hv
      · omega
      · exact hv.2
    rw [show utf8Bytes c = [0xF0 + c.toNat / 262144, 0x80 + c.toNat / 4096 % 64,
        0x80 + c.toNat / 64 % 64, 0x80 + c.toNat % 64] by
      simp only [utf8Bytes]; rw [if_neg (by omega), if_neg (by omega), if_neg (by omega)]]
    show utf8Decode ((0xF0 + c.toNat / 262144) :: (0x80 + c.toNat / 4096 % 64)
      :: (0x80 + c.toNat / 64 % 64) :: (0x80 + c.toNat % 64) :: rest) = c :: utf8Decode rest
    rw [utf8Decode_cons, show utf8Step (0xF0 + c.toNat / 262144)
        ((0x80 + c.toNat / 4096 % 64) :: (0x80 + c.toNat / 64 % 64)
          :: (0x80 + c.toNat % 64) :: rest) = (c, 3) by
      simp only [utf8Step]
      rw [if_neg (by omega), if_neg (by simp only [Bool.and_eq_true, decide_eq_true_eq]; omega)]
      rw [if_neg (by simp only [Bool.and_eq_true, decide_eq_true_eq]; omega)]
      rw [if_pos (by simp only [Bool.and_eq_true, decide_eq_true_eq]; omega)]
      rw [if_pos]
      · rw [show (0xF0 + c.toNat / 262144 - 0xF0) * 262144
            + (0x80 + c.toNat / 4096 % 64 - 0x80) * 4096
            + (0x80 + c.toNat / 64 % 64 - 0x80) * 64 + (0x80 + c.toNat % 64 - 0x80) = c.toNat by
          omega, hofn]
      · simp only [isCont, Bool.and_eq_true, Bool.or_eq_true, Bool.not_eq_true',
          beq_eq_false_iff_ne, decide_eq_true_eq, ne_eq]
        refine ⟨⟨⟨⟨⟨by omega, by omega⟩, ⟨by omega, by omega⟩⟩, ⟨by omega, by omega⟩⟩, ?_⟩, ?_⟩
        · rcases Nat.lt_or_ge c.toNat 0x40000 with hx | hx
          · exact Or.inr (by omega)
          · exact Or.inl (by omega)
        · rcases Nat.lt_or_ge c.toNat 0x100000 with hx | hx
          · exact Or.inl (by omega)
          · exact Or.inr (by omega)]
    rfl

theorem utf8_decode_strBytes (s : List Char) : utf8Decode (strBytes s) = s := by
  induction s with
  | nil =>
    show utf8Decode [] = []
    rfl
  | cons c t ih =>
    show utf8Decode (utf8Bytes c ++ strBytes t) = c :: t
    rw [utf8_decode_encode, ih]

/-! ### Percent / form-urlencoded round trip -/

theorem strBytes_lt (s : List Char) : ∀ b ∈ strBytes s, b < 256 := by
  intro b hb
  simp only [strBytes, List.mem_flatMap] at hb
  obtain ⟨c, _, hc⟩ := hb
  exact utf8Bytes_lt c b hc

theorem hexDigit_ok : ∀ d < 16,
    isHexByte (hexDigitChar d).toNat = true ∧ hexVal (hexDigitChar d).toNat = d ∧
    ((0x30 ≤ (hexDigitChar d).toNat ∧ (hexDigitChar d).toNat ≤ 0x39) ∨
      (0x41 ≤ (hexDigitChar d).toNat ∧ (hexDigitChar d).toNat ≤ 0x46)) := by decide

theorem strBytes_ascii {l : List Char} (h : ∀ c ∈ l, c.toNat < 0x80) :
    strBytes l = l.map Char.toNat := by
  induction l with
  | nil => rfl
  | cons c t ih =>
    show utf8Bytes c ++ strBytes t = c.toNat :: t.map Char.toNat
    rw [show utf8Bytes c = [c.toNat] by simp [utf8Bytes, h c (by simp)],
      ih fun x hx => h x (by simp [hx])]
    rfl

theorem unreservedByte_facts {b : Nat} (h : unreservedByte b = true) :
    (0x30 ≤ b ∧ b ≤ 0x39) ∨ (0x41 ≤ b ∧ b ≤ 0x5A) ∨ (0x61 ≤ b ∧ b ≤ 0x7A) ∨
    b = 0x2A ∨ b = 0x2D ∨ b = 0x2E ∨ b = 0x5F := by
  simp only [unreservedByte, Bool.or_eq_true, Bool.and_eq_true, decide_eq_true_eq,
    beq_iff_eq] at h
  tauto

theorem formEncodeByte_codes (b : Nat) (hb : b < 256) :
    ∀ x ∈ formEncodeByte b, 0x20 < x.toNat ∧ x.toNat ≤ 0x7E ∧
      x.toNat ≠ 0x23 ∧ x.toNat ≠ 0x22 ∧ x.toNat ≠ 0x3C ∧ x.toNat ≠ 0x3E ∧ x.toNat ≠ 0x27 ∧
      x.toNat ≠ 0x26 ∧ x.toNat ≠ 0x3D ∧ x.toNat ≠ 0x3F := by
  intro x hx
  simp only [formEncodeByte] at hx
  split at hx
  · rename_i hu
    simp only [List.mem_cons, List.not_mem_nil, or_false] at hx
    subst hx
    have hfacts := unreservedByte_facts hu
    have hv : (Char.ofNat b).toNat = b := toNat_ofNat_valid (Or.inl (by omega))
    rw [hv]
    omega
  · split at hx
    · simp only [List.mem_cons, List.not_mem_nil, or_false] at hx
      subst hx
      refine ⟨by decide, by decide, by decide, by decide, by decide, by decide, by decide,
        by decide, by decide, by decide⟩
    · simp only [List.mem_cons, List.not_mem_nil, or_false] at hx
      have hhi := hexDigit_ok (b / 16) (by omega)
      have hlo := hexDigit_ok (b % 16) (by omega)
      rcases hx with hx | hx | hx
      · subst hx
        refine ⟨by decide, by decide, by decide, by decide, by decide, by decide, by decide,
          by decide, by decide, by decide⟩
      · subst hx
        omega
      · subst hx
        omega

theorem safe_char_props {x : Char} (h1 : 0x20 < x.toNat) (h2 : x.toNat ≤ 0x7E)
    (h3 : x.toNat ≠ 0x23) (h4 : x.toNat ≠ 0x22) (h5 : x.toNat ≠ 0x3C)
    (h6 : x.toNat ≠ 0x3E) (h7 : x.toNat ≠ 0x27) :
    queryChar x = true ∧ queryEncodeSet x = false := by
  have hne : ∀ (c : Char), x.toNat ≠ c.toNat → (x == c) = false := fun c h =>
    beq_eq_false_iff_ne.mpr fun he => h (congrArg Char.toNat he)
  constructor
  · simp only [queryChar, wsChar, Bool.or_eq_true, Bool.not_eq_true']
    rw [hne '#' (by rw [show ('#').toNat = 0x23 from rfl]; exact h3),
      hne ' ' (by rw [show (' ').toNat = 0x20 from rfl]; omega),
      hne '\t' (by rw [show ('\t').toNat = 0x09 from rfl]; omega),
      hne '\n' (by rw [show ('\n').toNat = 0x0A from rfl]; omega),
      hne '\r' (by rw [show ('\r').toNat = 0x0D from rfl]; omega),
      hne '\x0b' (by rw [show ('\x0b').toNat = 0x0B from rfl]; omega),
      hne '\x0c' (by rw [show ('\x0c').toNat = 0x0C from rfl]; omega)]
    rfl
  · simp only [queryEncodeSet, Bool.or_eq_false_iff, decide_eq_false_iff_not, not_lt]
    refine ⟨⟨⟨⟨⟨⟨by omega, by omega⟩, ?_⟩, ?_⟩, ?_⟩, ?_⟩, ?_⟩
    · exact hne ' ' (by rw [show (' ').toNat = 0x20 from rfl]; omega)
    · exact hne '"' (by rw [show ('"').toNat = 0x22 from rfl]; exact h4)
    · exact hne '<' (by rw [show ('<').toNat = 0x3C from rfl]; exact h5)
    · exact hne '>' (by rw [show ('>').toNat = 0x3E from rfl]; exact h6)
    · exact hne '\'' (by rw [show ('\'').toNat = 0x27 from rfl]; exact h7)

theorem percentDecode_cons_lit {b : Nat} (hb : b ≠ 0x25) (rest : List Nat) :
    percentDecodeBytes (b :: rest) = b :: percentDecodeBytes rest := by
  rw [percentDecodeBytes.eq_3 b rest (by intro p q r hbeq _; exact hb hbeq)]

theorem percentDecode_percent {h1 h2 : Nat} (hh1 : isHexByte h1 = true)
    (hh2 : isHexByte h2 = true) (rest : List Nat) :
    percentDecodeBytes (0x25 :: h1 :: h2 :: rest)
      = (hexVal h1 * 16 + hexVal h2) :: percentDecodeBytes rest := by
  rw [percentDecodeBytes.eq_2, if_pos (by rw [hh1, hh2]; rfl)]

theorem plusToSpace_append (a b : List Nat) :
    plusToSpace (a ++ b) = plusToSpace a ++ plusToSpace b := by
  simp [plusToSpace]

theorem pd_plus_chunk (b : Nat) (hb : b < 256) (t : List Nat) :
    percentDecodeBytes (plusToSpace (strBytes (formEncodeByte b) ++ t))
      = b :: percentDecodeBytes (plusToSpace t) := by
  rw [plusToSpace_append]
  by_cases hu : unreservedByte b = true
  · have hfacts := unreservedByte_facts hu
    have hv : (Char.ofNat b).toNat = b := toNat_ofNat_valid (Or.inl (by omega))
    rw [show strBytes (formEncodeByte b) = [b] by
      rw [show formEncodeByte b = [Char.ofNat b] by simp [formEncodeByte, hu]]
      rw [strBytes_ascii (by simp [hv]; omega)]
      simp [hv]]
    rw [show plusToSpace [b] = [b] by simp [plusToSpace]; omega]
    rw [List.cons_append, List.nil_append, percentDecode_cons_lit (by omega)]
  by_cases hsp : b = 0x20
  · subst hsp
    rw [show strBytes (formEncodeByte 0x20) = [0x2B] by
      rw [show formEncodeByte 0x20 = ['+'] by simp [formEncodeByte, hu]]
      rw [strBytes_ascii (by decide)]
      rfl]
    rw [show plusToSpace [0x2B] = [0x20] from rfl]
    rw [List.cons_append, List.nil_append, percentDecode_cons_lit (by omega)]
  · have hhi := hexDigit_ok (b / 16) (by omega)
    have hlo := hexDigit_ok (b % 16) (by omega)
    rw [show strBytes (formEncodeByte b)
        = [0x25, (hexDigitChar (b / 16)).toNat, (hexDigitChar (b % 16)).toNat] by
      rw [show formEncodeByte b = ['%', hexDigitChar (b / 16), hexDigitChar (b % 16)] by
        simp [formEncodeByte, hu, hsp]]
      rw [strBytes_ascii (by
        intro c hc
        simp only [List.mem_cons, List.not_mem_nil, or_false] at hc
        rcases hc with hc | hc | hc <;> subst hc
        · decide
        · omega
        · omega)]
      rfl]
    rw [show plusToSpace [0x25, (hexDigitChar (b / 16)).toNat, (hexDigitChar (b % 16)).toNat]
        = [0x25, (hexDigitChar (b / 16)).toNat, (hexDigitChar (b % 16)).toNat] by
      simp [plusToSpace]
      constructor <;> omega]
    rw [List.cons_append, List.cons_append, List.cons_append, List.nil_append]
    rw [percentDecode_percent hhi.1 hlo.1]
    rw [hhi.2.1, hlo.2.1]
    congr 1
    omega

theorem pd_plus_encodeAll (bs : List Nat) (h : ∀ b ∈ bs, b < 256) :
    percentDecodeBytes (plusToSpace (strBytes (bs.flatMap formEncodeByte))) = bs := by
  induction bs with
  | nil =>
    show percentDecodeBytes (plusToSpace (strBytes [])) = []
    rw [show plusToSpace (strBytes []) = [] from rfl, percentDecodeBytes.eq_1]
  | cons b t ih =>
    rw [show (b :: t).flatMap formEncodeByte = formEncodeByte b ++ t.flatMap formEncodeByte
      from rfl]
    rw [show strBytes (formEncodeByte b ++ t.flatMap formEncodeByte)
      = strBytes (formEncodeByte b) ++ strBytes (t.flatMap formEncodeByte) by
      simp [strBytes]]
    rw [pd_plus_chunk b (h b (by simp)) _, ih fun x hx => h x (by simp [hx])]

theorem formDecode_formEncode (s : List Char) : formDecodeStr (formEncodeStr s) = s := by
  have h1 : ∀ x ∈ formEncodeStr s, x.toNat < 0x80 := by
    intro x hx
    simp only [formEncodeStr, List.mem_flatMap] at hx
    obtain ⟨b, hb, hxb⟩ := hx
    have := formEncodeByte_codes b (strBytes_lt s b hb) x hxb
    omega
  show utf8Decode (percentDecodeBytes (plusToSpace (strBytes (formEncodeStr s)))) = s
  rw [show (formEncodeStr s) = (strBytes s).flatMap formEncodeByte from rfl]
  rw [pd_plus_encodeAll _ (strBytes_lt s), utf8_decode_strBytes]

theorem mem_joinSep {sep : Char} {x : Char} {l : List (List Char)}
    (h : x ∈ joinSep sep l) : x = sep ∨ ∃ a ∈ l, x ∈ a := by
  induction l with
  | nil => cases h
  | cons a t ih =>
    cases t with
    | nil =>
      exact Or.inr ⟨a, by simp, h⟩
    | cons b r =>
      rw [show joinSep sep (a :: b :: r) = a ++ sep :: joinSep sep (b :: r) from rfl] at h
      rw [List.mem_append, List.mem_cons] at h
      rcases h with h | h | h
      · exact Or.inr ⟨a, by simp, h⟩
      · exact Or.inl h
      · rcases ih h with h | ⟨c, hc, hxc⟩
        · exact Or.inl h
        · exact Or.inr ⟨c, by simp [hc], hxc⟩

theorem formEncodeStr_codes (s : List Char) :
    ∀ x ∈ formEncodeStr s, 0x20 < x.toNat ∧ x.toNat ≤ 0x7E ∧
      x.toNat ≠ 0x23 ∧ x.toNat ≠ 0x22 ∧ x.toNat ≠ 0x3C ∧ x.toNat ≠ 0x3E ∧ x.toNat ≠ 0x27 ∧
      x.toNat ≠ 0x26 ∧ x.toNat ≠ 0x3D ∧ x.toNat ≠ 0x3F := by
  intro x hx
  simp only [formEncodeStr, List.mem_flatMap] at hx
  obtain ⟨b, hb, hxb⟩ := hx
  exact formEncodeByte_codes b (strBytes_lt s b hb) x hxb

/-- Every character of a serialized pair list is a query character outside the
query encode set and is none of `?`, and the separators are the only `&`/`=`
occurrences outside the encoded keys/values. -/
theorem serializePairs_safe (ps : List (List Char × List Char)) :
    ∀ x ∈ serializePairs ps, queryChar x = true ∧ queryEncodeSet x = false ∧ x ≠ '?' := by
  intro x hx
  have hcodes : 0x20 < x.toNat ∧ x.toNat ≤ 0x7E ∧ x.toNat ≠ 0x23 ∧ x.toNat ≠ 0x22 ∧
      x.toNat ≠ 0x3C ∧ x.toNat ≠ 0x3E ∧ x.toNat ≠ 0x27 ∧ x.toNat ≠ 0x3F := by
    rcases mem_joinSep hx with hx | ⟨piece, hp, hxp⟩
    · subst hx
      refine ⟨by decide, by decide, by decide, by decide, by decide, by decide, by decide,
        by decide⟩
    · simp only [List.mem_map] at hp
      obtain ⟨kv, _, hkv⟩ := hp
      subst hkv
      rw [List.mem_append, List.mem_cons] at hxp
      rcases hxp with hxp | hxp | hxp
      · have := formEncodeStr_codes kv.1 x hxp
        tauto
      · subst hxp
        refine ⟨by decide, by decide, by decide, by decide, by decide, by decide, by decide,
          by decide⟩
      · have := formEncodeStr_codes kv.2 x hxp
        tauto
  obtain ⟨h1, h2, h3, h4, h5, h6, h7, h8⟩ := hcodes
  have hqc := safe_char_props h1 h2 h3 h4 h5 h6 h7
  refine ⟨hqc.1, hqc.2, fun he => h8 (by rw [he]; rfl)⟩

theorem serializePairs_eq_nil_iff (ps : List (List Char × List Char)) :
    serializePairs ps = [] ↔ ps = [] := by
  constructor
  · intro h
    cases ps with
    | nil => rfl
    | cons kv t =>
      exfalso
      cases t with
      | nil =>
        rw [show serializePairs [kv]
          = formEncodeStr kv.1 ++ '=' :: formEncodeStr kv.2 from rfl] at h
        simp at h
      | cons kv2 r =>
        rw [show serializePairs (kv :: kv2 :: r) = (formEncodeStr kv.1 ++ '=' :: formEncodeStr kv.2)
          ++ '&' :: joinSep '&' ((kv2 :: r).map fun p => formEncodeStr p.1 ++ '=' :: formEncodeStr p.2)
          from rfl] at h
        simp at h
  · intro h
    subst h
    rfl

theorem splitFirstEq_append {a : List Char} (b : List Char) (h : ∀ c ∈ a, c ≠ '=') :
    splitFirstEq (a ++ '=' :: b) = (a, some b) := by
  induction a with
  | nil => rfl
  | cons c t ih =>
    rw [List.cons_append, splitFirstEq.eq_3 c _ (h c (by simp)),
      ih fun x hx => h x (by simp [hx])]

theorem char_ne_of_code {x : Char} {c : Char} {n : Nat} (hc : c.toNat = n)
    (h : x.toNat ≠ n) : x ≠ c := fun he => h (by rw [he, hc])

theorem decode_enc_piece (kv : List Char × List Char) :
    (match splitFirstEq (formEncodeStr kv.1 ++ '=' :: formEncodeStr kv.2) with
      | (k, some v) => (formDecodeStr k, formDecodeStr v)
      | (k, none) => (formDecodeStr k, ([] : List Char))) = kv := by
  rw [splitFirstEq_append _ fun c hc =>
    char_ne_of_code rfl (formEncodeStr_codes kv.1 c hc).2.2.2.2.2.2.2.2.1]
  show (formDecodeStr (formEncodeStr kv.1), formDecodeStr (formEncodeStr kv.2)) = kv
  rw [formDecode_formEncode, formDecode_formEncode]

theorem formDecodePairs_serializePairs (ps : List (List Char × List Char)) :
    formDecodePairs (serializePairs ps) = ps := by
  cases ps with
  | nil => rfl
  | cons kv0 t0 =>
    show formDecodePairs (joinSep '&'
      ((kv0 :: t0).map fun kv => formEncodeStr kv.1 ++ '=' :: formEncodeStr kv.2)) = kv0 :: t0
    rw [formDecodePairs, splitSep_joinSep (by simp) ?hfree]
    case hfree =>
      intro piece hp c hc
      simp only [List.mem_map] at hp
      obtain ⟨kv, _, hkv⟩ := hp
      subst hkv
      rw [List.mem_append, List.mem_cons] at hc
      rcases hc with hc | hc | hc
      · exact char_ne_of_code rfl (formEncodeStr_codes kv.1 c hc).2.2.2.2.2.2.2.1
      · subst hc
        decide
      · exact char_ne_of_code rfl (formEncodeStr_codes kv.2 c hc).2.2.2.2.2.2.2.1
    generalize (kv0 :: t0) = ps
    induction ps with
    | nil => rfl
    | cons kv t ih =>
      rw [List.map_cons, List.filter_cons_of_pos (by simp), List.map_cons, ih]
      rw [decode_enc_piece]

theorem canonicalizeQuery_noop {q : List Char} (h : ∀ x ∈ q, queryEncodeSet x = false) :
    canonicalizeQuery q = q := by
  induction q with
  | nil => rfl
  | cons c t ih =>
    show (if queryEncodeSet c then percentEncodeChar c else [c]) ++ canonicalizeQuery t = c :: t
    rw [h c (by simp), if_neg (by simp), ih fun x hx => h x (by simp [hx])]
    rfl

theorem pairs_of_serialized (ps : List (List Char × List Char)) :
    formDecodePairs (canonicalizeQuery (serializePairs ps)) = ps := by
  rw [canonicalizeQuery_noop fun x hx => (serializePairs_safe ps x hx).2.1,
    formDecodePairs_serializePairs]

/-! ### Matcher lemmas -/

theorem takeWhile_all {p : Char → Bool} {l : List Char} (h : ∀ c ∈ l, p c) :
    l.takeWhile p = l := List.takeWhile_eq_self_iff.mpr h

theorem dropWhile_all {p : Char → Bool} {l : List Char} (h : ∀ c ∈ l, p c) :
    l.dropWhile p = [] := by
  have := congrArg (List.drop (l.takeWhile p).length) (List.takeWhile_append_dropWhile p l)
  rw [List.drop_left] at this
  rw [takeWhile_all h, List.drop_length] at this
  exact this

theorem fragEnd_shaped {f : List Char} (hf : fragShaped f) : fragEnd f = some f := by
  rcases hf with hf | ⟨t, hft, htne, hall⟩
  · subst hf
    exact fragEnd.eq_1
  · subst hft
    rw [fragEnd.eq_2, if_neg]
    · rw [takeWhile_all hall]
    · rw [takeWhile_all hall, dropWhile_all hall]
      simp [htne]

theorem queryOpt_shaped {q : List Char} (f : List Char) (hq : queryShaped q)
    (hf : f = [] ∨ ∃ t, f = '#' :: t) : queryOpt (q ++ f) = some (q, f) := by
  rcases hq with hq | ⟨t, hqt, htne, hall⟩
  · subst hq
    rw [List.nil_append]
    rcases hf with hf | ⟨t, hft⟩
    · subst hf
      exact queryOpt.eq_2 [] (by intro t h; cases h)
    · subst hft
      exact queryOpt.eq_2 _ (by intro t' h; cases h)
  · subst hqt
    rw [List.cons_append, queryOpt.eq_1]
    have htw : (t ++ f).takeWhile queryChar = t := by
      rcases hf with hf | ⟨t', hft⟩
      · subst hf
        rw [List.append_nil, takeWhile_all hall]
      · subst hft
        rw [takeWhile_append_all _ hall]
        simp [List.takeWhile_cons, queryChar]
    have hdw : (t ++ f).dropWhile queryChar = f := by
      rcases hf with hf | ⟨t', hft⟩
      · subst hf
        rw [List.append_nil, dropWhile_all hall]
      · subst hft
        rw [dropWhile_append_all _ hall]
        simp [List.dropWhile_cons, queryChar]
    rw [htw, hdw, if_neg (by simp [htne])]

theorem pathOpt_shaped {p : List Char} (rest : List Char) (hp : pathShaped p)
    (hrest : rest = [] ∨ ∃ t, rest = '?' :: t ∨ rest = '#' :: t) :
    pathOpt (p ++ rest) = (p, rest) := by
  rcases hp with hp | ⟨t, hpt, hall⟩
  · subst hp
    rw [List.nil_append]
    refine pathOpt.eq_2 rest ?_
    intro t h
    subst h
    rcases hrest with h | ⟨t', h | h⟩ <;> cases h
  · subst hpt
    rw [List.cons_append, pathOpt.eq_1]
    have htw : (t ++ rest).takeWhile pathChar = t := by
      rcases hrest with h | ⟨t', h | h⟩ <;> subst h
      · rw [List.append_nil, takeWhile_all hall]
      · rw [takeWhile_append_all _ hall]
        simp [List.takeWhile_cons, pathChar]
      · rw [takeWhile_append_all _ hall]
        simp [List.takeWhile_cons, pathChar]
    have hdw : (t ++ rest).dropWhile pathChar = rest := by
      rcases hrest with h | ⟨t', h | h⟩ <;> subst h
      · rw [List.append_nil, dropWhile_all hall]
      · rw [dropWhile_append_all _ hall]
        simp [List.dropWhile_cons, pathChar]
      · rw [dropWhile_append_all _ hall]
        simp [List.dropWhile_cons, pathChar]
    rw [htw, hdw]

theorem pathQF_shaped {p q f : List Char} (hp : pathShaped p) (hq : queryShaped q)
    (hf : fragShaped f) : pathQF (p ++ q ++ f) = some (p, q, f) := by
  have hfh : f = [] ∨ ∃ t, f = '#' :: t := by
    rcases hf with hf | ⟨t, hft, _, _⟩
    · exact Or.inl hf
    · exact Or.inr ⟨t, hft⟩
  have hqfh : q ++ f = [] ∨ ∃ t, q ++ f = '?' :: t ∨ q ++ f = '#' :: t := by
    rcases hq with hq | ⟨t, hqt, _, _⟩
    · subst hq
      rcases hfh with hf | ⟨t, hft⟩
      · exact Or.inl (by simp [hf])
      · exact Or.inr ⟨t, Or.inr (by simp [hft])⟩
    · subst hqt
      exact Or.inr ⟨t ++ f, Or.inl (by simp)⟩
  rw [pathQF, List.append_assoc, pathOpt_shaped (q ++ f) hp hqfh]
  show (queryOpt (q ++ f)).bind _ = _
  rw [queryOpt_shaped f hq hfh]
  show (fragEnd f).map _ = _
  rw [fragEnd_shaped hf]
  rfl

theorem boundary_not_didChar : ∀ c : Char, (c = '/' ∨ c = '?' ∨ c = '#') → didChar c = false := by
  intro c hc
  rcases hc with hc | hc | hc <;> subst hc <;> decide

theorem boundary_not_hostRestChar : ∀ c : Char, (c = '/' ∨ c = '?' ∨ c = '#') →
    hostRestChar c = false := by
  intro c hc
  rcases hc with hc | hc | hc <;> subst hc <;> decide

theorem did_prefix_parts {s : List Char} (hci : ciStarts (chars "did:") s = true) :
    ∃ a b c d t, s = a :: b :: c :: d :: t ∧
      ('d'.toLower == a.toLower) = true ∧ ('i'.toLower == b.toLower) = true ∧
      ('d'.toLower == c.toLower) = true ∧ (':'.toLower == d.toLower) = true := by
  rw [show chars "did:" = ['d', 'i', 'd', ':'] from rfl] at hci
  rcases s with _ | ⟨a, _ | ⟨b, _ | ⟨c, _ | ⟨d, t⟩⟩⟩⟩ <;>
    simp only [ciStarts, Bool.and_eq_true, Bool.false_eq_true, and_false] at hci
  exact ⟨a, b, c, d, t, rfl, hci.1, hci.2.1, hci.2.2.1, hci.2.2.2.1⟩

theorem did_prefix_rebuild {a b c d : Char} (t : List Char)
    (h1 : ('d'.toLower == a.toLower) = true) (h2 : ('i'.toLower == b.toLower) = true)
    (h3 : ('d'.toLower == c.toLower) = true) (h4 : (':'.toLower == d.toLower) = true) :
    ciStarts (chars "did:") (a :: b :: c :: d :: t) = true := by
  rw [show chars "did:" = ['d', 'i', 'd', ':'] from rfl]
  simp only [ciStarts, Bool.and_eq_true]
  exact ⟨h1, h2, h3, h4, trivial⟩

theorem didSplit_shaped {h : List Char} {r : List Char} (hd : didShaped h)
    (hr : boundaryHead r) : didSplit (h ++ r) = some (h, r) := by
  obtain ⟨hci, hne, hall⟩ := hd
  obtain ⟨a, b, c, d, t, hparts, h1, h2, h3, h4⟩ := did_prefix_parts hci
  subst hparts
  have hne' : t ≠ [] := by simpa using hne
  have hall' : ∀ x ∈ t, didChar x = true := fun x hx => hall x (by simpa using hx)
  rw [show (a :: b :: c :: d :: t) ++ r = a :: b :: c :: d :: (t ++ r) from rfl]
  rw [didSplit, if_pos (did_prefix_rebuild (t ++ r) h1 h2 h3 h4)]
  rw [show (a :: b :: c :: d :: (t ++ r)).drop 4 = t ++ r from rfl]
  rw [takeWhile_append_all r hall', dropWhile_append_all r hall',
    takeWhile_nil_of_head hr boundary_not_didChar,
    dropWhile_id_of_head hr boundary_not_didChar]
  rw [List.append_nil, if_neg (by simp [hne'])]
  rfl

theorem domSplit_shaped {h : List Char} {r : List Char} (hd : domShaped h)
    (hr : boundaryHead r) : domSplit (h ++ r) = some (h, r) := by
  obtain ⟨c, t, hparts, hfirst, hall⟩ := hd
  subst hparts
  rw [show (c :: t) ++ r = c :: (t ++ r) from rfl, domSplit, if_pos hfirst]
  rw [takeWhile_append_all r hall, dropWhile_append_all r hall,
    takeWhile_nil_of_head hr boundary_not_hostRestChar,
    dropWhile_id_of_head hr boundary_not_hostRestChar, List.append_nil]

theorem pathQF_none_of_bad_head {x : Char} (hx1 : x ≠ '/') (hx2 : x ≠ '?') (hx3 : x ≠ '#')
    (rest : List Char) : pathQF (x :: rest) = none := by
  rw [pathQF, pathOpt.eq_2 _ (by intro t ht; cases ht; exact hx1 rfl)]
  show (queryOpt (x :: rest)).bind _ = none
  rw [queryOpt.eq_2 _ (by intro t ht; cases ht; exact hx2 rfl)]
  show (fragEnd (x :: rest)).map _ = none
  rw [fragEnd.eq_3 _ (by intro ht; cases ht)
    (by intro t ht; cases ht; exact hx3 rfl)]
  rfl

theorem all_or_split (p : Char → Bool) (l : List Char) :
    (∀ c ∈ l, p c = true) ∨
    ∃ pre x post, l = pre ++ x :: post ∧ (∀ c ∈ pre, p c = true) ∧ p x = false := by
  induction l with
  | nil => exact Or.inl (by simp)
  | cons c t ih =>
    cases hc : p c with
    | false => exact Or.inr ⟨[], c, t, rfl, by simp, hc⟩
    | true =>
      rcases ih with ih | ⟨pre, x, post, hsplit, hpre, hx⟩
      · refine Or.inl ?_
        intro y hy
        rcases List.mem_cons.mp hy with hy | hy
        · subst hy
          exact hc
        · exact ih y hy
      · refine Or.inr ⟨c :: pre, x, post, by simp [hsplit], ?_, hx⟩
        intro y hy
        rcases List.mem_cons.mp hy with hy | hy
        · subst hy
          exact hc
        · exact hpre y hy

theorem hostPQF_shaped {h : List Char} (r : List Char) (hs : hostShaped h)
    (hr : boundaryHead r) :
    hostPQF (h ++ r) = (pathQF r).map fun pqf => (h, pqf) := by
  rcases hs with hd | hdom
  · -- did-shaped host: the did alternative captures exactly h
    have hds := didSplit_shaped hd hr
    simp only [hostPQF, hds]
    cases hpq : pathQF r with
    | some v => simp [hpq]
    | none =>
      simp only [hpq, Option.map_none']
      -- the domain alternative cannot rescue the match either
      obtain ⟨hci, hne, hall⟩ := hd
      obtain ⟨a, b, c, d, t, hparts, h1, h2, h3, h4⟩ := did_prefix_parts hci
      subst hparts
      have hall' : ∀ x ∈ t, didChar x = true := fun x hx => hall x (by simpa using hx)
      rw [show (a :: b :: c :: d :: t) ++ r = a :: ((b :: c :: d :: t) ++ r) from rfl]
      cases hf : hostFirstChar a with
      | false =>
        rw [show domSplit (a :: ((b :: c :: d :: t) ++ r))
          = if hostFirstChar a then some (a :: ((b :: c :: d :: t) ++ r).takeWhile hostRestChar,
              ((b :: c :: d :: t) ++ r).dropWhile hostRestChar) else none from rfl]
        rw [if_neg (by simp [hf])]
        rfl
      | true =>
        rw [show domSplit (a :: ((b :: c :: d :: t) ++ r))
          = if hostFirstChar a then some (a :: ((b :: c :: d :: t) ++ r).takeWhile hostRestChar,
              ((b :: c :: d :: t) ++ r).dropWhile hostRestChar) else none from rfl]
        rw [if_pos hf]
        rcases all_or_split hostRestChar (b :: c :: d :: t) with hall2 | ⟨pre, x, post, hsp, hpre, hx⟩
        · rw [takeWhile_append_all r hall2, dropWhile_append_all r hall2,
            takeWhile_nil_of_head hr boundary_not_hostRestChar,
            dropWhile_id_of_head hr boundary_not_hostRestChar, List.append_nil]
          simp [hpq]
        · have hxne : x ≠ '/' ∧ x ≠ '?' ∧ x ≠ '#' := by
            have hxmem : x ∈ b :: c :: d :: t := by
              rw [hsp]
              exact List.mem_append_right _ (by simp)
            rcases List.mem_cons.mp hxmem with he | hxmem
            · subst he
              refine ⟨?_, ?_, ?_⟩ <;> (intro he; subst he; exact absurd h2 (by decide))
            rcases List.mem_cons.mp hxmem with he | hxmem
            · subst he
              refine ⟨?_, ?_, ?_⟩ <;> (intro he; subst he; exact absurd h3 (by decide))
            rcases List.mem_cons.mp hxmem with he | hxmem
            · subst he
              refine ⟨?_, ?_, ?_⟩ <;> (intro he; subst he; exact absurd h4 (by decide))
            · have hdx := hall' x hxmem
              refine ⟨?_, ?_, ?_⟩ <;> (intro he; subst he; exact absurd hdx (by decide))
          rw [hsp, List.append_assoc]
          rw [takeWhile_append_all (x :: post ++ r) hpre,
            dropWhile_append_all (x :: post ++ r) hpre]
          rw [show (x :: post ++ r).takeWhile hostRestChar = [] by
            simp [List.takeWhile_cons, hx]]
          rw [show (x :: post ++ r).dropWhile hostRestChar = x :: post ++ r by
            simp [List.dropWhile_cons, hx]]
          rw [List.append_nil]
          simp [pathQF_none_of_bad_head hxne.1 hxne.2.1 hxne.2.2]
  · -- domain-shaped host
    cases hci : ciStarts (chars "did:") (h ++ r) with
    | false =>
      have hdnone : didSplit (h ++ r) = none := by
        rw [didSplit, if_neg (by simp [hci])]
      simp only [hostPQF, hdnone, domSplit_shaped hdom hr]
      cases hpq : pathQF r <;> simp [hpq]
    | true =>
      obtain ⟨c0, t0, hparts, hfirst, hall0⟩ := hdom
      subst hparts
      obtain ⟨a, b, c, d, u, hparts2, h1, h2, h3, h4⟩ := did_prefix_parts hci
      have hbound : ∀ y : Char, (y = '/' ∨ y = '?' ∨ y = '#') →
          (('i'.toLower == y.toLower) = true → False) ∧
          (('d'.toLower == y.toLower) = true → False) ∧
          ((':'.toLower == y.toLower) = true → False) := by
        intro y hy
        rcases hy with hy | hy | hy <;> subst hy <;> exact ⟨by decide, by decide, by decide⟩
      -- t0 must supply at least three more characters
      match ht0 : t0 with
      | [] =>
        exfalso
        rw [show (c0 :: ([] : List Char)) ++ r = c0 :: r from rfl] at hparts2
        injection hparts2 with he1 he2
        subst he2
        exact (hbound b hr).1 h2
      | [x1] =>
        exfalso
        rw [show (c0 :: [x1]) ++ r = c0 :: x1 :: r from rfl] at hparts2
        injection hparts2 with he1 he2
        injection he2 with he3 he4
        subst he4
        exact (hbound c hr).2.1 h3
      | [x1, x2] =>
        exfalso
        rw [show (c0 :: [x1, x2]) ++ r = c0 :: x1 :: x2 :: r from rfl] at hparts2
        injection hparts2 with he1 he2
        injection he2 with he3 he4
        injection he4 with he5 he6
        subst he6
        exact (hbound d hr).2.2 h4
      | x1 :: x2 :: x3 :: t1 =>
        have hdom' : domShaped (c0 :: x1 :: x2 :: x3 :: t1) := ⟨c0, _, rfl, hfirst, hall0⟩
        have hds := domSplit_shaped hdom' hr
        have hdrop : ((c0 :: x1 :: x2 :: x3 :: t1) ++ r).drop 4 = t1 ++ r := rfl
        have htake : ((c0 :: x1 :: x2 :: x3 :: t1) ++ r).take 4 = [c0, x1, x2, x3] := rfl
        rcases all_or_split didChar t1 with hall1 | ⟨pre, x0, post, hsp, hpre, hx0⟩
        · by_cases ht1 : t1 = []
          · subst ht1
            have hdnone : didSplit ((c0 :: x1 :: x2 :: x3 :: ([] : List Char)) ++ r) = none := by
              simp only [didSplit, if_pos hci, hdrop]
              rw [List.nil_append, takeWhile_nil_of_head hr boundary_not_didChar]
              simp
            simp only [hostPQF, hdnone, hds]
            cases hpq : pathQF r <;> simp [hpq]
          · have hdsome : didSplit ((c0 :: x1 :: x2 :: x3 :: t1) ++ r)
                = some (c0 :: x1 :: x2 :: x3 :: t1, r) := by
              simp only [didSplit, if_pos hci, hdrop, htake]
              rw [takeWhile_append_all r hall1, dropWhile_append_all r hall1,
                takeWhile_nil_of_head hr boundary_not_didChar,
                dropWhile_id_of_head hr boundary_not_didChar, List.append_nil]
              rw [if_neg (by simp [ht1])]
              rfl
            simp only [hostPQF, hdsome, hds]
            cases hpq : pathQF r <;> simp [hpq]
        · have hx0ne : x0 ≠ '/' ∧ x0 ≠ '?' ∧ x0 ≠ '#' := by
            have hx0host : hostRestChar x0 = true := by
              refine hall0 x0 ?_
              rw [hsp]
              exact List.mem_cons_of_mem _ (List.mem_cons_of_mem _ (List.mem_cons_of_mem _
                (List.mem_append_right _ (by simp))))
            refine ⟨?_, ?_, ?_⟩ <;> (intro he; subst he; exact absurd hx0host (by decide))
          by_cases hpre0 : pre = []
          · subst hpre0
            have hdnone : didSplit ((c0 :: x1 :: x2 :: x3 :: t1) ++ r) = none := by
              simp only [didSplit, if_pos hci, hdrop]
              rw [hsp, List.nil_append, List.cons_append]
              rw [show (x0 :: (post ++ r)).takeWhile didChar = [] by
                simp [List.takeWhile_cons, hx0]]
              simp
            simp only [hostPQF, hdnone, hds]
            cases hpq : pathQF r <;> simp [hpq]
          · have hdsome : didSplit ((c0 :: x1 :: x2 :: x3 :: t1) ++ r)
                = some ([c0, x1, x2, x3] ++ pre, x0 :: (post ++ r)) := by
              simp only [didSplit, if_pos hci, hdrop, htake]
              rw [hsp, List.append_assoc]
              rw [takeWhile_append_all (x0 :: post ++ r) hpre,
                dropWhile_append_all (x0 :: post ++ r) hpre]
              rw [show (x0 :: post ++ r).takeWhile didChar = [] by
                simp [List.takeWhile_cons, hx0]]
              rw [show (x0 :: post ++ r).dropWhile didChar = x0 :: post ++ r by
                simp [List.dropWhile_cons, hx0]]
              rw [List.append_nil, if_neg (by simp [hpre0])]
              rfl
            simp only [hostPQF, hdsome, hds]
            rw [pathQF_none_of_bad_head hx0ne.1 hx0ne.2.1 hx0ne.2.2]
            cases hpq : pathQF r <;> simp [hpq]

theorem ciStarts_self_append (pat rest : List Char) : ciStarts pat (pat ++ rest) = true := by
  induction pat with
  | nil => rfl
  | cons c t ih => simp [ciStarts, ih]

theorem shapes_boundary {p q f : List Char} (hp : pathShaped p) (hq : queryShaped q)
    (hf : fragShaped f) : boundaryHead (p ++ q ++ f) := by
  rcases hp with hp | ⟨t, hpt, _⟩
  · subst hp
    rcases hq with hq | ⟨t, hqt, _, _⟩
    · subst hq
      rcases hf with hf | ⟨t, hft, _, _⟩
      · subst hf
        trivial
      · subst hft
        exact Or.inr (Or.inr rfl)
    · subst hqt
      exact Or.inr (Or.inl rfl)
  · subst hpt
    exact Or.inl rfl

theorem atp_shaped {h p q f : List Char} (hs : hostShaped h) (hp : pathShaped p)
    (hq : queryShaped q) (hf : fragShaped f) :
    atp_uri_regex (chars "at://" ++ (h ++ (p ++ q ++ f)))
      = some ⟨chars "at://", h, p, q, f⟩ := by
  have hci := ciStarts_self_append (chars "at://") (h ++ (p ++ q ++ f))
  simp only [atp_uri_regex, hci, if_pos]
  rw [show (chars "at://" ++ (h ++ (p ++ q ++ f))).drop 5 = h ++ (p ++ q ++ f) from rfl]
  rw [show (chars "at://" ++ (h ++ (p ++ q ++ f))).take 5 = chars "at://" from rfl]
  rw [hostPQF_shaped (p ++ q ++ f) hs (shapes_boundary hp hq hf),
    pathQF_shaped hp hq hf]
  rfl

theorem atp_no_marker {s : List Char} (hci : ciStarts (chars "at://") s = false) :
    atp_uri_regex s
      = (hostPQF s).map fun m => ⟨[], m.1, m.2.1, m.2.2.1, m.2.2.2⟩ := by
  simp only [atp_uri_regex, hci]
  rw [if_neg (by simp)]
  cases hm : hostPQF s <;> simp [hm]

theorem didSplit_inv {s h r : List Char} (hm : didSplit s = some (h, r)) :
    didShaped h ∧ s = h ++ r := by
  rw [didSplit] at hm
  by_cases hci : ciStarts (chars "did:") s = true
  · rw [if_pos hci] at hm
    by_cases hrun : ((s.drop 4).takeWhile didChar).isEmpty = true
    · rw [if_pos hrun] at hm
      cases hm
    · rw [if_neg hrun] at hm
      injection hm with hm1
      injection hm1 with hh hrr
      obtain ⟨a, b, c, d, t, hparts, h1, h2, h3, h4⟩ := did_prefix_parts hci
      subst hparts
      have htake : (a :: b :: c :: d :: t).take 4 = [a, b, c, d] := rfl
      have hdrop : (a :: b :: c :: d :: t).drop 4 = t := rfl
      rw [htake, hdrop] at hh
      rw [hdrop] at hrr hrun
      constructor
      · refine ⟨?_, ?_, ?_⟩
        · rw [← hh]
          exact did_prefix_rebuild _ h1 h2 h3 h4
        · rw [← hh]
          rw [show ([a, b, c, d] ++ t.takeWhile didChar).drop 4 = t.takeWhile didChar from rfl]
          simpa using hrun
        · rw [← hh]
          rw [show ([a, b, c, d] ++ t.takeWhile didChar).drop 4 = t.takeWhile didChar from rfl]
          exact fun x hx => List.mem_takeWhile_imp hx
      · rw [← hh, ← hrr]
        rw [show ([a, b, c, d] ++ t.takeWhile didChar) ++ t.dropWhile didChar
          = a :: b :: c :: d :: (t.takeWhile didChar ++ t.dropWhile didChar) from rfl]
        rw [List.takeWhile_append_dropWhile]
  · rw [if_neg hci] at hm
    cases hm

theorem domSplit_inv {s h r : List Char} (hm : domSplit s = some (h, r)) :
    domShaped h ∧ s = h ++ r := by
  cases s with
  | nil => cases hm
  | cons c t =>
    rw [show domSplit (c :: t) = if hostFirstChar c then
        some (c :: t.takeWhile hostRestChar, t.dropWhile hostRestChar) else none from rfl] at hm
    by_cases hf : hostFirstChar c = true
    · rw [if_pos hf] at hm
      injection hm with hm1
      injection hm1 with hh hrr
      constructor
      · exact ⟨c, t.takeWhile hostRestChar, hh.symm, hf,
          fun x hx => List.mem_takeWhile_imp hx⟩
      · rw [← hh, ← hrr]
        rw [show (c :: t.takeWhile hostRestChar) ++ t.dropWhile hostRestChar
          = c :: (t.takeWhile hostRestChar ++ t.dropWhile hostRestChar) from rfl]
        rw [List.takeWhile_append_dropWhile]
    · rw [if_neg hf] at hm
      cases hm

theorem fragEnd_inv {s f : List Char} (hm : fragEnd s = some f) :
    fragShaped f ∧ s = f := by
  cases s with
  | nil =>
    rw [fragEnd.eq_1] at hm
    injection hm with hm
    exact ⟨Or.inl hm.symm, hm⟩
  | cons c t =>
    by_cases hc : c = '#'
    · subst hc
      rw [fragEnd.eq_2] at hm
      by_cases hcond : ((t.takeWhile fragChar).isEmpty || !(t.dropWhile fragChar).isEmpty) = true
      · rw [if_pos hcond] at hm
        cases hm
      · rw [if_neg hcond] at hm
        injection hm with hm
        have h1 : (t.takeWhile fragChar).isEmpty = false := by
          cases hx : (t.takeWhile fragChar).isEmpty
          · rfl
          · exact absurd (by rw [hx]; simp) hcond
        have h2 : (t.dropWhile fragChar).isEmpty = true := by
          cases hx : (t.dropWhile fragChar).isEmpty
          · exact absurd (by rw [hx]; simp) hcond
          · rfl
        have hdw : t.dropWhile fragChar = [] := by rwa [List.isEmpty_iff] at h2
        have ht : t.takeWhile fragChar = t := by
          have h3 := List.takeWhile_append_dropWhile (p := fragChar) (l := t)
          rw [hdw, List.append_nil] at h3
          exact h3
        constructor
        · refine Or.inr ⟨t.takeWhile fragChar, hm.symm, ?_, fun x hx => List.mem_takeWhile_imp hx⟩
          intro he
          rw [he] at h1
          simp at h1
        · rw [← hm, ht]
    · rw [fragEnd.eq_3 _ (by intro h; cases h)
        (by intro t' ht'; cases ht'; exact hc rfl)] at hm
      cases hm

theorem queryOpt_inv {s q r : List Char} (hm : queryOpt s = some (q, r)) :
    queryShaped q ∧ s = q ++ r := by
  cases s with
  | nil =>
    rw [queryOpt.eq_2 _ (by intro t h; cases h)] at hm
    injection hm with hm
    injection hm with hq hr
    exact ⟨Or.inl hq.symm, by rw [← hq, ← hr]; rfl⟩
  | cons c t =>
    by_cases hc : c = '?'
    · subst hc
      rw [queryOpt.eq_1] at hm
      by_cases hrun : (t.takeWhile queryChar).isEmpty = true
      · rw [if_pos hrun] at hm
        cases hm
      · rw [if_neg hrun] at hm
        injection hm with hm
        injection hm with hq hr
        constructor
        · refine Or.inr ⟨t.takeWhile queryChar, hq.symm, ?_,
            fun x hx => List.mem_takeWhile_imp hx⟩
          intro he
          rw [he] at hrun
          simp at hrun
        · rw [← hq, ← hr]
          rw [show ('?' :: t.takeWhile queryChar) ++ t.dropWhile queryChar
            = '?' :: (t.takeWhile queryChar ++ t.dropWhile queryChar) from rfl]
          rw [List.takeWhile_append_dropWhile]
    · rw [queryOpt.eq_2 _ (by intro t' ht'; cases ht'; exact hc rfl)] at hm
      injection hm with hm
      injection hm with hq hr
      exact ⟨Or.inl hq.symm, by rw [← hq, ← hr]; rfl⟩

theorem pathOpt_inv {s : List Char} {p r : List Char} (hm : pathOpt s = (p, r)) :
    pathShaped p ∧ s = p ++ r := by
  cases s with
  | nil =>
    rw [pathOpt.eq_2 _ (by intro t h; cases h)] at hm
    injection hm with hp hr
    exact ⟨Or.inl hp.symm, by rw [← hp, ← hr]; rfl⟩
  | cons c t =>
    by_cases hc : c = '/'
    · subst hc
      rw [pathOpt.eq_1] at hm
      injection hm with hp hr
      constructor
      · exact Or.inr ⟨t.takeWhile pathChar, hp.symm, fun x hx => List.mem_takeWhile_imp hx⟩
      · rw [← hp, ← hr]
        rw [show ('/' :: t.takeWhile pathChar) ++ t.dropWhile pathChar
          = '/' :: (t.takeWhile pathChar ++ t.dropWhile pathChar) from rfl]
        rw [List.takeWhile_append_dropWhile]
    · rw [pathOpt.eq_2 _ (by intro t' ht'; cases ht'; exact hc rfl)] at hm
      injection hm with hp hr
      exact ⟨Or.inl hp.symm, by rw [← hp, ← hr]; rfl⟩

theorem pathQF_inv {s : List Char} {p q f : List Char} (hm : pathQF s = some (p, q, f)) :
    pathShaped p ∧ queryShaped q ∧ fragShaped f ∧ s = p ++ q ++ f := by
  rw [pathQF] at hm
  set pr := pathOpt s with hpr
  obtain ⟨hp, hs1⟩ := pathOpt_inv (show pathOpt s = (pr.1, pr.2) by rw [← hpr])
  cases hq0 : queryOpt pr.2 with
  | none => rw [hq0] at hm; cases hm
  | some qr =>
    rw [hq0] at hm
    obtain ⟨hq, hs2⟩ := queryOpt_inv (show queryOpt pr.2 = some (qr.1, qr.2) by rw [hq0])
    rw [Option.some_bind] at hm
    cases hf0 : fragEnd qr.2 with
    | none => rw [hf0] at hm; cases hm
    | some f1 =>
      rw [hf0] at hm
      obtain ⟨hf, hs3⟩ := fragEnd_inv hf0
      rw [Option.map_some'] at hm
      injection hm with hm
      injection hm with hm1 hm
      injection hm with hm2 hm3
      subst hm1
      subst hm2
      subst hm3
      exact ⟨hp, hq, hf, by rw [hs1, hs2, hs3, List.append_assoc]⟩

theorem hostSplit_branch_inv {h p q f : List Char}
    (spl : Option (List Char × List Char))
    (hm : (match spl with
      | some hr => Option.map (fun pqf => (hr.1, pqf)) (pathQF hr.2)
      | none => none) = some (h, p, q, f)) :
    ∃ r, spl = some (h, r) ∧ pathQF r = some (p, q, f) := by
  cases spl with
  | none => cases hm
  | some hr =>
    rw [show (match some hr with
      | some hr => Option.map (fun pqf => (hr.1, pqf)) (pathQF hr.2)
      | none => none) = Option.map (fun pqf => (hr.1, pqf)) (pathQF hr.2) from rfl] at hm
    cases hpq : pathQF hr.2 with
    | none => rw [hpq] at hm; cases hm
    | some v =>
      rw [hpq, Option.map_some'] at hm
      injection hm with hm
      injection hm with hm1 hm2
      refine ⟨hr.2, ?_, ?_⟩
      · rw [← hm1]
      · rw [hpq, hm2]

theorem hostPQF_inv {s : List Char} {h p q f : List Char}
    (hm : hostPQF s = some (h, p, q, f)) :
    hostShaped h ∧ pathShaped p ∧ queryShaped q ∧ fragShaped f := by
  rw [hostPQF] at hm
  have horelse : ∀ (a b : Option (List Char × List Char × List Char × List Char)) v,
      (a <|> b) = some v → a = some v ∨ b = some v := by
    intro a b v hab
    cases a <;> simp_all
  rcases horelse _ _ _ hm with hbr | hbr
  · obtain ⟨r, hspl, hpq⟩ := hostSplit_branch_inv _ hbr
    obtain ⟨hps, hqs, hfs, _⟩ := pathQF_inv hpq
    exact ⟨Or.inl (didSplit_inv hspl).1, hps, hqs, hfs⟩
  · obtain ⟨r, hspl, hpq⟩ := hostSplit_branch_inv _ hbr
    obtain ⟨hps, hqs, hfs, _⟩ := pathQF_inv hpq
    exact ⟨Or.inr (domSplit_inv hspl).1, hps, hqs, hfs⟩

theorem atp_uri_regex_inv {s : List Char} {m : AtpMatch} (hm : atp_uri_regex s = some m) :
    hostShaped m.g_host ∧ pathShaped m.g_path ∧ queryShaped m.g_query ∧ fragShaped m.g_frag := by
  rw [atp_uri_regex] at hm
  have horelse : ∀ (a b : Option AtpMatch) v, (a <|> b) = some v → a = some v ∨ b = some v := by
    intro a b v hab
    cases a <;> simp_all
  rcases horelse _ _ _ hm with hbr | hbr
  · by_cases hci : ciStarts (chars "at://") s = true
    · rw [if_pos hci] at hbr
      cases hpq : hostPQF (s.drop 5) with
      | none => rw [hpq] at hbr; cases hbr
      | some v =>
        rw [hpq, Option.map_some'] at hbr
        injection hbr with hbr
        subst hbr
        exact hostPQF_inv (show hostPQF (s.drop 5) = some (v.1, v.2.1, v.2.2.1, v.2.2.2) by
          rw [hpq])
    · rw [if_neg hci] at hbr
      cases hbr
  · cases hpq : hostPQF s with
    | none => rw [hpq] at hbr; cases hbr
    | some v =>
      rw [hpq, Option.map_some'] at hbr
      injection hbr with hbr
      subst hbr
      exact hostPQF_inv (show hostPQF s = some (v.1, v.2.1, v.2.2.1, v.2.2.2) by rw [hpq])

theorem relative_regex_inv {s : List Char} {m : RelMatch} (hm : relative_regex s = some m) :
    pathShaped m.g_path ∧ queryShaped m.g_query ∧ fragShaped m.g_frag ∧
      s = m.g_path ++ m.g_query ++ m.g_frag := by
  rw [relative_regex] at hm
  cases hpq : pathQF s with
  | none => rw [hpq] at hm; cases hm
  | some v =>
    rw [hpq, Option.map_some'] at hm
    injection hm with hm
    subst hm
    exact pathQF_inv (show pathQF s = some (v.1, v.2.1, v.2.2) by rw [hpq])

theorem parse_inv {s : List Char} {po : ParsedOutput} (hp : parse s = some po) :
    hostShaped po.host ∧ pathShaped po.pathname ∧ fragShaped po.hash ∧
      ∃ qcap, queryShaped qcap ∧ po.search_params = queryPairsOfCapture qcap := by
  rw [parse] at hp
  cases hm : atp_uri_regex s with
  | none => rw [hm] at hp; cases hp
  | some m =>
    rw [hm, Option.map_some'] at hp
    injection hp with hp
    subst hp
    obtain ⟨hh, hpa, hq, hf⟩ := atp_uri_regex_inv hm
    exact ⟨hh, hpa, hf, m.g_query, hq, rfl⟩

theorem parse_relative_inv {s : List Char} {po : ParsedRelativeOutput}
    (hp : parse_relative s = some po) :
    pathShaped po.pathname ∧ fragShaped po.hash ∧
      ∃ qcap, queryShaped qcap ∧ po.search_params = queryPairsOfCapture qcap := by
  rw [parse_relative] at hp
  cases hm : relative_regex s with
  | none => rw [hm] at hp; cases hp
  | some m =>
    rw [hm, Option.map_some'] at hp
    injection hp with hp
    subst hp
    obtain ⟨hpa, hq, hf, _⟩ := relative_regex_inv hm
    exact ⟨hpa, hf, m.g_query, hq, rfl⟩

theorem to_string_eq (u : AtUri) (hp : pathShaped u.pathname) :
    AtUri.to_string u = chars "at://" ++ (u.host ++
      ((if u.pathname = [] then chars "/" else u.pathname) ++
       (if serializePairs u.search_params = [] then []
        else '?' :: serializePairs u.search_params) ++
       (if u.hash = [] then [] else '#' :: u.hash))) := by
  have hqs : (match u.get_search with
      | some sp => if !(sp.take 1 == ['?']) && !(sp == []) then '?' :: sp else sp
      | none => []) = (if serializePairs u.search_params = [] then []
        else '?' :: serializePairs u.search_params) := by
    rw [show u.get_search = some (serializePairs u.search_params) from rfl]
    by_cases hnil : serializePairs u.search_params = []
    · rw [if_pos hnil, hnil]
      simp
    · rw [if_neg hnil]
      have hhead : ¬((serializePairs u.search_params).take 1 == ['?']) = true := by
        cases hsp : serializePairs u.search_params with
        | nil => exact absurd hsp hnil
        | cons c t =>
          have hc : c ≠ '?' := by
            have := serializePairs_safe u.search_params c (by rw [hsp]; simp)
            exact this.2.2
          simp [List.take, hc]
      show (if !((serializePairs u.search_params).take 1 == ['?'])
          && !(serializePairs u.search_params == []) then
          '?' :: serializePairs u.search_params else serializePairs u.search_params) = _
      rw [if_pos]
      simp only [Bool.and_eq_true, Bool.not_eq_true', beq_eq_false_iff_ne, ne_eq]
      constructor
      · intro he
        exact hhead (by rw [he]; rfl)
      · exact hnil
  have hpath : (if (if u.pathname == [] then chars "/" else u.pathname).take 1 == ['/'] then
        (if u.pathname == [] then chars "/" else u.pathname)
      else '/' :: (if u.pathname == [] then chars "/" else u.pathname))
      = (if u.pathname = [] then chars "/" else u.pathname) := by
    rcases hp with hp0 | ⟨t, hpt, _⟩
    · have c1 : (u.pathname == []) = true := by rw [hp0]; rfl
      rw [if_pos c1, if_pos (show ((chars "/").take 1 == ['/']) = true by rfl), if_pos hp0]
    · have c1 : (u.pathname == []) = false := by rw [hpt]; rfl
      rw [if_neg (show ¬((u.pathname == []) = true) by simp [c1]),
        if_pos (show (u.pathname.take 1 == ['/']) = true by rw [hpt]; rfl),
        if_neg (show ¬(u.pathname = []) by simp [hpt])]
  have hhash : (if u.hash == [] then u.hash else '#' :: u.hash)
      = (if u.hash = [] then [] else '#' :: u.hash) := by
    by_cases hh : u.hash = []
    · rw [if_pos (by simp [hh]), if_pos hh, hh]
    · rw [if_neg (by simp [hh]), if_neg hh]
  show chars "at://" ++ u.host ++ _ ++ _ ++ _ = _
  rw [hqs, hpath, hhash]
  simp only [List.append_assoc]

theorem parse_to_string {u : AtUri} (hh : hostShaped u.host) (hp : pathShaped u.pathname)
    (hf : fragShaped u.hash) :
    parse (AtUri.to_string u) = some
      { hash := if u.hash = [] then [] else '#' :: u.hash,
        host := u.host,
        pathname := if u.pathname = [] then chars "/" else u.pathname,
        search_params := u.search_params } := by
  have hP : pathShaped (if u.pathname = [] then chars "/" else u.pathname) := by
    by_cases hp0 : u.pathname = []
    · rw [if_pos hp0]
      exact Or.inr ⟨[], rfl, by simp⟩
    · rw [if_neg hp0]
      exact hp
  have hQ : queryShaped (if serializePairs u.search_params = [] then []
      else '?' :: serializePairs u.search_params) := by
    by_cases hq0 : serializePairs u.search_params = []
    · rw [if_pos hq0]
      exact Or.inl rfl
    · rw [if_neg hq0]
      exact Or.inr ⟨serializePairs u.search_params, rfl, hq0,
        fun x hx => (serializePairs_safe u.search_params x hx).1⟩
  have hH : fragShaped (if u.hash = [] then [] else '#' :: u.hash) := by
    by_cases hh0 : u.hash = []
    · rw [if_pos hh0]
      exact Or.inl rfl
    · rw [if_neg hh0]
      refine Or.inr ⟨u.hash, rfl, hh0, ?_⟩
      rcases hf with hf0 | ⟨t, hft, _, hall⟩
      · exact absurd hf0 hh0
      · intro x hx
        rw [hft] at hx
        rcases List.mem_cons.mp hx with he | hx
        · subst he
          decide
        · exact hall x hx
  rw [to_string_eq u hp, parse, atp_shaped hh hP hQ hH, Option.map_some']
  have hpairs : queryPairsOfCapture (if serializePairs u.search_params = [] then []
      else '?' :: serializePairs u.search_params) = u.search_params := by
    by_cases hq0 : serializePairs u.search_params = []
    · rw [if_pos hq0]
      rw [(serializePairs_eq_nil_iff u.search_params).mp hq0]
      rfl
    · rw [if_neg hq0]
      show formDecodePairs (canonicalizeQuery (serializePairs u.search_params)) = _
      exact pairs_of_serialized u.search_params
  rw [show queryPairsOfCapture (if serializePairs u.search_params = [] then []
      else '?' :: serializePairs u.search_params) = u.search_params from hpairs]

theorem toLower_eq_nonletter {c : Char} {d : Char} (hd : d.toNat < 65)
    (h : c.toLower = d) : c = d := by
  unfold Char.toLower at h
  by_cases hc : c.toNat ≥ 65 ∧ c.toNat ≤ 90
  · rw [if_pos hc] at h
    have h2 := congrArg Char.toNat h
    rw [toNat_ofNat_valid (Or.inl (by omega))] at h2
    omega
  · rw [if_neg hc] at h
    exact h

theorem lcEq_slash {c : Char} (h : ('/'.toLower == c.toLower) = true) : c = '/' := by
  have h1 : c.toLower = '/' := by
    rw [show '/'.toLower = '/' from rfl] at h
    exact (beq_iff_eq.mp h).symm
  exact toLower_eq_nonletter (by decide) h1

theorem at_prefix_parts {s : List Char} (hci : ciStarts (chars "at://") s = true) :
    ∃ c1 c2 c3 t, s = c1 :: c2 :: c3 :: '/' :: '/' :: t := by
  rw [show chars "at://" = ['a', 't', ':', '/', '/'] from rfl] at hci
  rcases s with _ | ⟨c1, _ | ⟨c2, _ | ⟨c3, _ | ⟨c4, _ | ⟨c5, t⟩⟩⟩⟩⟩ <;>
    simp only [ciStarts, Bool.and_eq_true, Bool.false_eq_true, and_false] at hci
  obtain ⟨_, _, _, h4, h5, _⟩ := hci
  rw [lcEq_slash h4, lcEq_slash h5]
  exact ⟨c1, c2, c3, t, rfl⟩

theorem no_at_marker_of_single_slash {A R : List Char} (hA : ∀ c ∈ A, c ≠ '/')
    (hR : ∀ c ∈ R, c ≠ '/') : ciStarts (chars "at://") (A ++ '/' :: R) = false := by
  cases hci : ciStarts (chars "at://") (A ++ '/' :: R) with
  | false => rfl
  | true =>
    exfalso
    obtain ⟨c1, c2, c3, t, hparts⟩ := at_prefix_parts hci
    have hcount : (A ++ '/' :: R).count '/' = 1 := by
      rw [List.count_append, List.count_cons]
      rw [List.count_eq_zero.mpr (fun h => hA '/' h rfl),
        List.count_eq_zero.mpr (fun h => hR '/' h rfl)]
      simp
    rw [hparts] at hcount
    simp [List.count_cons] at hcount
    omega

theorem msgs_ne (b u : List Char) : invalidUriMsg b ≠ invalidPathMsg u := by
  intro he
  have h1 : invalidUriMsg b = 'I' :: 'n' :: 'v' :: 'a' :: 'l' :: 'i' :: 'd' :: ' ' :: 'a'
      :: (chars "t uri: `" ++ b ++ chars "`") := rfl
  have h2 : invalidPathMsg u = 'I' :: 'n' :: 'v' :: 'a' :: 'l' :: 'i' :: 'd' :: ' ' :: 'p'
      :: (chars "ath: `" ++ u ++ chars "`") := rfl
  rw [h1, h2] at he
  simp at he

/-! ### Archive lemmas -/

theorem varintF_mono : ∀ f1 f2 n, n ≤ f1 → n ≤ f2 → varintF f1 n = varintF f2 n := by
  intro f1
  induction f1 with
  | zero =>
    intro f2 n h1 _
    have hn : n = 0 := by omega
    subst hn
    cases f2 with
    | zero => rfl
    | succ g => show [0 % 0x80] = if 0 < 0x80 then [0] else _; rw [if_pos (by omega)]
  | succ g ih =>
    intro f2 n h1 h2
    cases f2 with
    | zero =>
      have hn : n = 0 := by omega
      subst hn
      show (if 0 < 0x80 then [0] else _) = [0 % 0x80]
      rw [if_pos (by omega)]
    | succ g2 =>
      show (if n < 0x80 then [n] else (n % 0x80 + 0x80) :: varintF g (n / 0x80))
          = (if n < 0x80 then [n] else (n % 0x80 + 0x80) :: varintF g2 (n / 0x80))
      by_cases h : n < 0x80
      · rw [if_pos h, if_pos h]
      · rw [if_neg h, if_neg h]
        have hd : n / 0x80 < n := Nat.div_lt_self (by omega) (by omega)
        rw [ih g2 (n / 0x80) (by omega) (by omega)]

theorem varint_unfold (n : Nat) :
    varint n = if n < 0x80 then [n] else (n % 0x80 + 0x80) :: varint (n / 0x80) := by
  show varintF n n = _
  cases n with
  | zero => show [0 % 0x80] = if 0 < 0x80 then [0] else _; rw [if_pos (by omega)]
  | succ m =>
    show (if m + 1 < 0x80 then [m + 1] else (( m + 1) % 0x80 + 0x80) :: varintF m ((m + 1) / 0x80))
        = _
    by_cases h : m + 1 < 0x80
    · rw [if_pos h, if_pos h]
    · rw [if_neg h, if_neg h]
      have hd : (m + 1) / 0x80 < m + 1 := Nat.div_lt_self (by omega) (by omega)
      show _ = _ :: varintF ((m + 1) / 0x80) ((m + 1) / 0x80)
      rw [varintF_mono m ((m + 1) / 0x80) ((m + 1) / 0x80) (by omega) (le_refl _)]

theorem varint_ne_nil (n : Nat) : varint n ≠ [] := by
  rw [varint_unfold]
  by_cases h : n < 0x80
  · rw [if_pos h]
    simp
  · rw [if_neg h]
    simp

theorem decodeVarint_varint (n : Nat) (rest : List Nat) :
    decodeVarint (varint n ++ rest) = some (n, rest) := by
  induction n using Nat.strong_induction_on with
  | _ n ih =>
    by_cases h : n < 0x80
    · rw [show varint n = [n] by rw [varint_unfold, if_pos h]]
      rw [List.cons_append, List.nil_append]
      rw [show decodeVarint (n :: rest) = if n < 0x80 then some (n, rest)
        else (decodeVarint rest).map fun p => (p.1 * 0x80 + (n - 0x80), p.2) from rfl]
      rw [if_pos h]
    · rw [show varint n = (n % 0x80 + 0x80) :: varint (n / 0x80) by rw [varint_unfold, if_neg h]]
      rw [List.cons_append]
      rw [show decodeVarint ((n % 0x80 + 0x80) :: (varint (n / 0x80) ++ rest))
        = if n % 0x80 + 0x80 < 0x80 then some (n % 0x80 + 0x80, varint (n / 0x80) ++ rest)
          else (decodeVarint (varint (n / 0x80) ++ rest)).map
            fun p => (p.1 * 0x80 + (n % 0x80 + 0x80 - 0x80), p.2) from rfl]
      rw [if_neg (by omega), ih (n / 0x80) (by omega)]
      rw [Option.map_some']
      rw [show n / 0x80 * 0x80 + (n % 0x80 + 0x80 - 0x80) = n by omega]

theorem readRecord_lengthPrefixed (b rest : List Nat) :
    readRecord (lengthPrefixed b ++ rest) = some (b, rest) := by
  rw [lengthPrefixed, List.append_assoc, readRecord, decodeVarint_varint]
  rw [Option.some_bind]
  rw [if_pos (by simp)]
  rw [List.take_left, List.drop_left]

theorem lengthPrefixed_ne_nil (b : List Nat) : lengthPrefixed b ≠ [] := by
  rw [lengthPrefixed]
  intro h
  exact varint_ne_nil b.length (by
    cases hv : varint b.length with
    | nil => rfl
    | cons x t => rw [hv] at h; cases h)

theorem recordStreamF_encode (rs : List (List Nat)) :
    ∀ fuel, rs.length ≤ fuel →
      recordStreamF fuel ((rs.map lengthPrefixed).flatten) = some rs := by
  induction rs with
  | nil =>
    intro fuel _
    show recordStreamF fuel [] = some []
    cases fuel <;> rfl
  | cons r rs' ih =>
    intro fuel hfuel
    obtain ⟨f, rfl⟩ : ∃ f, fuel = f + 1 := ⟨fuel - 1, by simp at hfuel; omega⟩
    rw [List.map_cons, List.flatten_cons]
    cases hv : varint r.length with
    | nil => exact absurd hv (varint_ne_nil r.length)
    | cons x t =>
      have hshape : lengthPrefixed r ++ (rs'.map lengthPrefixed).flatten
          = x :: (t ++ (r ++ (rs'.map lengthPrefixed).flatten)) := by
        rw [lengthPrefixed, hv]
        simp [List.append_assoc]
      rw [hshape]
      rw [show recordStreamF (f + 1) (x :: (t ++ (r ++ (rs'.map lengthPrefixed).flatten)))
        = (readRecord (x :: (t ++ (r ++ (rs'.map lengthPrefixed).flatten)))).bind
            fun p => (recordStreamF f p.2).map fun l => p.1 :: l from rfl]
      rw [← hshape, readRecord_lengthPrefixed]
      rw [Option.some_bind, ih f (by simp at hfuel ⊢; omega)]
      rfl

theorem flatten_length_ge (rs : List (List Nat)) :
    rs.length ≤ ((rs.map lengthPrefixed).flatten).length := by
  induction rs with
  | nil => simp
  | cons r rs' ih =>
    rw [List.map_cons, List.flatten_cons, List.length_append, List.length_cons]
    have h1 : 1 ≤ (lengthPrefixed r).length := by
      cases hv : lengthPrefixed r with
      | nil => exact absurd hv (lengthPrefixed_ne_nil r)
      | cons x t => simp
    omega

theorem recordStream_encode (rs : List (List Nat)) :
    recordStream ((rs.map lengthPrefixed).flatten) = some rs :=
  recordStreamF_encode rs _ (flatten_length_ge rs)

theorem decodeCborHead_cborHead (major n : Nat) (rest : List Nat)
    (hn : n < 0x10000000000000000) :
    decodeCborHead major (cborHead major n ++ rest) = some (n, rest) := by
  rw [cborHead]
  by_cases h1 : n < 24
  · rw [if_pos h1]
    rw [show ([32 * major + n] : List Nat) ++ rest = (32 * major + n) :: rest from by simp]
    rw [decodeCborHead]
    rw [if_neg (by intro hq; rw [beq_iff_eq] at hq; omega),
      if_neg (by intro hq; rw [beq_iff_eq] at hq; omega),
      if_neg (by intro hq; rw [beq_iff_eq] at hq; omega),
      if_neg (by intro hq; rw [beq_iff_eq] at hq; omega),
      if_pos (by simp only [Bool.and_eq_true, decide_eq_true_eq]; omega)]
    rw [show 32 * major + n - 32 * major = n by omega]
  by_cases h2 : n < 0x100
  · rw [if_neg h1, if_pos h2]
    rw [show ([32 * major + 24, n] : List Nat) ++ rest = (32 * major + 24) :: n :: rest
      from by simp]
    rw [decodeCborHead, if_pos (by simp), read1]
  by_cases h3 : n < 0x10000
  · rw [if_neg h1, if_neg h2, if_pos h3]
    rw [show ([32 * major + 25, n / 0x100, n % 0x100] : List Nat) ++ rest
      = (32 * major + 25) :: (n / 0x100) :: (n % 0x100) :: rest from by simp]
    rw [decodeCborHead, if_neg (by intro hq; rw [beq_iff_eq] at hq; omega),
      if_pos (by simp), read2]
    rw [show n / 0x100 * 0x100 + n % 0x100 = n by omega]
  by_cases h4 : n < 0x100000000
  · rw [if_neg h1, if_neg h2, if_neg h3, if_pos h4]
    rw [show ([32 * major + 26, n / 0x1000000 % 0x100, n / 0x10000 % 0x100, n / 0x100 % 0x100,
        n % 0x100] : List Nat) ++ rest
      = (32 * major + 26) :: (n / 0x1000000 % 0x100) :: (n / 0x10000 % 0x100)
        :: (n / 0x100 % 0x100) :: (n % 0x100) :: rest from by simp]
    rw [decodeCborHead, if_neg (by intro hq; rw [beq_iff_eq] at hq; omega),
      if_neg (by intro hq; rw [beq_iff_eq] at hq; omega), if_pos (by simp), read4]
    rw [show ((n / 0x1000000 % 0x100 * 0x100 + n / 0x10000 % 0x100) * 0x100
      + n / 0x100 % 0x100) * 0x100 + n % 0x100 = n by omega]
  · rw [if_neg h1, if_neg h2, if_neg h3, if_neg h4]
    rw [show ([32 * major + 27, n / 0x100000000000000 % 0x100, n / 0x1000000000000 % 0x100,
        n / 0x10000000000 % 0x100, n / 0x100000000 % 0x100, n / 0x1000000 % 0x100,
        n / 0x10000 % 0x100, n / 0x100 % 0x100, n % 0x100] : List Nat) ++ rest
      = (32 * major + 27) :: (n / 0x100000000000000 % 0x100) :: (n / 0x1000000000000 % 0x100)
        :: (n / 0x10000000000 % 0x100) :: (n / 0x100000000 % 0x100) :: (n / 0x1000000 % 0x100)
        :: (n / 0x10000 % 0x100) :: (n / 0x100 % 0x100) :: (n % 0x100) :: rest from by simp]
    rw [decodeCborHead, if_neg (by intro hq; rw [beq_iff_eq] at hq; omega),
      if_neg (by intro hq; rw [beq_iff_eq] at hq; omega),
      if_neg (by intro hq; rw [beq_iff_eq] at hq; omega), if_pos (by simp), read8]
    rw [show ((((((n / 0x100000000000000 % 0x100 * 0x100 + n / 0x1000000000000 % 0x100) * 0x100
        + n / 0x10000000000 % 0x100) * 0x100 + n / 0x100000000 % 0x100) * 0x100
        + n / 0x1000000 % 0x100) * 0x100 + n / 0x10000 % 0x100) * 0x100 + n / 0x100 % 0x100)
        * 0x100 + n % 0x100 = n by omega]

theorem stripBytes_append (pat rest : List Nat) : stripBytes pat (pat ++ rest) = some rest := by
  induction pat with
  | nil => rfl
  | cons p ps ih =>
    rw [List.cons_append]
    rw [show stripBytes (p :: ps) (p :: (ps ++ rest))
      = if p == p then stripBytes ps (ps ++ rest) else none from rfl]
    rw [if_pos (by simp), ih]

theorem decodeCid_cidBytes (c : Cid) (rest : List Nat) :
    decodeCid (cidBytes c ++ rest) = some (c, rest) := by
  rw [cidBytes, decodeCid]
  rw [List.append_assoc, List.append_assoc, List.append_assoc, List.append_assoc]
  rw [decodeVarint_varint, Option.some_bind]
  rw [decodeVarint_varint, Option.some_bind]
  rw [decodeVarint_varint, Option.some_bind]
  rw [decodeVarint_varint, Option.some_bind]
  rw [if_pos (by simp)]
  rw [List.take_left, List.drop_left]

theorem decodeHeader_headerPayload (root : Cid)
    (hlen : (cidBytes root).length + 1 < 0x10000000000000000) :
    decodeHeader (headerPayload root) = some (1, [root]) := by
  rw [decodeHeader, headerPayload]
  rw [show [0xA2] ++ cborHead 3 5 ++ asciiBytes (chars "roots") ++
      [0x81, 0xD8, 0x2A] ++ cborHead 2 ((cidBytes root).length + 1) ++ 0x00 :: cidBytes root ++
      cborHead 3 7 ++ asciiBytes (chars "version") ++ [0x01]
    = ([0xA2] ++ cborHead 3 5 ++ asciiBytes (chars "roots") ++ [0x81, 0xD8, 0x2A]) ++
      (cborHead 2 ((cidBytes root).length + 1) ++ (0x00 :: (cidBytes root ++
        (cborHead 3 7 ++ asciiBytes (chars "version") ++ [0x01])))) from by
    simp [List.append_assoc]]
  rw [stripBytes_append, Option.some_bind]
  rw [decodeCborHead_cborHead 2 ((cidBytes root).length + 1) _ hlen, Option.some_bind]
  rw [show ((cidBytes root).length + 1, 0x00 :: (cidBytes root ++
      (cborHead 3 7 ++ asciiBytes (chars "version") ++ [0x01]))).1
    = (cidBytes root).length + 1 from rfl]
  show (if (cidBytes root).length ≤ (cidBytes root ++
      (cborHead 3 7 ++ asciiBytes (chars "version") ++ [0x01])).length then _ else none) = _
  rw [if_pos (by simp)]
  rw [List.take_left, List.drop_left]
  have hc : decodeCid (cidBytes root) = some (root, []) := by
    have h0 := decodeCid_cidBytes root []
    rwa [List.append_nil] at h0
  rw [hc]
  show (stripBytes (cborHead 3 7 ++ asciiBytes (chars "version"))
      ((cborHead 3 7 ++ asciiBytes (chars "version")) ++ [0x01])).bind _ = _
  rw [stripBytes_append, Option.some_bind]
  rfl

theorem mapM_decodeBlockRecord (blocks : List (Cid × List Nat)) :
    (blocks.map fun b => blockBytes b).mapM decodeBlockRecord = some blocks := by
  induction blocks with
  | nil => rfl
  | cons b t ih =>
    rw [List.map_cons, List.mapM_cons]
    rw [show decodeBlockRecord (blockBytes b) = some (b.1, b.2) from by
      rw [decodeBlockRecord, blockBytes, decodeCid_cidBytes]]
    rw [ih]
    rfl

theorem recordStream_read_car_bytes (root : Cid) (blocks : List (Cid × List Nat)) :
    recordStream (read_car_bytes root blocks)
      = some (headerPayload root :: blocks.map fun b => blockBytes b) := by
  have h := recordStream_encode (headerPayload root :: blocks.map fun b => blockBytes b)
  rw [List.map_cons, List.flatten_cons] at h
  rw [read_car_bytes]
  rw [show (blocks.map fun b => lengthPrefixed (blockBytes b))
    = ((blocks.map fun b => blockBytes b).map lengthPrefixed) from by
    rw [List.map_map]; rfl]
  exact h

theorem dummyUrlQuery_qmark (q : List Char) (hq : ∀ c ∈ q, c ≠ '#') :
    dummyUrlQuery ('?' :: q) = some (some (canonicalizeQuery q)) := by
  rw [dummyUrlQuery]
  have hauth : ('?' :: q).takeWhile
      (fun c => !(c == '/' || c == '?' || c == '#' || c == '\\')) = [] := by
    rw [List.takeWhile_cons]
    simp
  rw [hauth]
  rw [if_neg (by simp)]
  rw [show (([] : List Char).any fun c => c == ':') = false from rfl]
  rw [if_neg (by simp)]
  rw [show ('?' :: q).drop ([] : List Char).length = '?' :: q from rfl]
  have hdrop : ('?' :: q).dropWhile (fun c => !(c == '?' || c == '#')) = '?' :: q := by
    rw [List.dropWhile_cons]
    simp
  rw [hdrop]
  show some (some (canonicalizeQuery (q.takeWhile fun c => !(c == '#')))) = _
  rw [takeWhile_all (by
    intro c hc
    simp only [Bool.not_eq_true', beq_eq_false_iff_ne, ne_eq]
    exact hq c hc)]

theorem hostShaped_no_slash {h : List Char} (hs : hostShaped h) : ∀ c ∈ h, c ≠ '/' := by
  rcases hs with hd | hdom
  · obtain ⟨hci, _, hall⟩ := hd
    obtain ⟨a, b, c, d, t, hparts, h1, h2, h3, h4⟩ := did_prefix_parts hci
    subst hparts
    have hall' : ∀ x ∈ t, didChar x = true := fun x hx => hall x (by simpa using hx)
    intro x hx
    rcases List.mem_cons.mp hx with he | hx
    · subst he
      intro he2
      rw [he2] at h1
      exact absurd h1 (by decide)
    rcases List.mem_cons.mp hx with he | hx
    · subst he
      intro he2
      rw [he2] at h2
      exact absurd h2 (by decide)
    rcases List.mem_cons.mp hx with he | hx
    · subst he
      intro he2
      rw [he2] at h3
      exact absurd h3 (by decide)
    rcases List.mem_cons.mp hx with he | hx
    · subst he
      intro he2
      rw [he2] at h4
      exact absurd h4 (by decide)
    · intro he2
      subst he2
      exact absurd (hall' _ hx) (by decide)
  · obtain ⟨c, t, hparts, hfirst, hall⟩ := hdom
    subst hparts
    intro x hx
    rcases List.mem_cons.mp hx with he | hx
    · subst he
      intro he2
      subst he2
      exact absurd hfirst (by decide)
    · intro he2
      subst he2
      exact absurd (hall _ hx) (by decide)

theorem parse_make (authority rkey : List Char) (hs : hostShaped authority)
    (hrk : ∀ c ∈ rkey, pathChar c = true) (hsl : ∀ c ∈ rkey, c ≠ '/') :
    parse (authority ++ '/' :: rkey)
      = some { hash := [], host := authority, pathname := '/' :: rkey,
               search_params := [] } := by
  have hAslash : ∀ c ∈ authority, c ≠ '/' := hostShaped_no_slash hs
  rw [parse, atp_no_marker (no_at_marker_of_single_slash hAslash hsl)]
  rw [hostPQF_shaped ('/' :: rkey) hs (Or.inl rfl)]
  rw [show pathQF ('/' :: rkey) = pathQF (('/' :: rkey) ++ [] ++ []) from by simp]
  rw [pathQF_shaped (Or.inr ⟨rkey, rfl, hrk⟩) (Or.inl rfl) (Or.inl rfl)]
  rfl

/-! ### The claims -/

/-- C2: marker hygiene fails on the code: parsing "a#b" stores hash "#b"
(marker included), and `Display` unconditionally prepends another "#", so the
rendering "at://a/##b" contains the forbidden substring "##". -/
theorem c2_render_contains_double_hash :
    AtUri.new (chars "a#b") none = .ok { hash := chars "#b", host := chars "a", pathname := [], search_params := [] } ∧
    AtUri.to_string { hash := chars "#b", host := chars "a", pathname := [], search_params := ([] : List (List Char × List Char)) } = chars "at://a/##b" ∧
    containsSeq (chars "##") (chars "at://a/##b") = true := by
  refine ⟨by rfl, by rfl, by rfl⟩

/-- C3 counterexample: the concrete construct of the claim yields hash "#frag",
not "frag" — the stored fragment keeps its leading marker. -/
theorem c3_hash_counterexample :
    AtUri.new (chars "/app.bsky.feed.post/123?q=1#frag")
      (some (chars "did:plc:abc/ignored"))
      = .ok { hash := chars "#frag", host := chars "did:plc:abc",
              pathname := chars "/app.bsky.feed.post/123",
              search_params := [(chars "q", chars "1")] } ∧
    (chars "#frag" : List Char) ≠ chars "frag" := by
  refine ⟨by rfl, by decide⟩

/-- C3 (amended): the hash field stores the fragment WITH its leading `#`
marker: every successful parse or relative parse yields an empty hash or one
that starts with `#`, and the claim's concrete construct yields hash "#frag". -/
theorem c3_hash_with_marker :
    (∀ s po, parse s = some po → po.hash = [] ∨ ∃ t, po.hash = '#' :: t) ∧
    (∀ s po, parse_relative s = some po → po.hash = [] ∨ ∃ t, po.hash = '#' :: t) ∧
    AtUri.new (chars "/app.bsky.feed.post/123?q=1#frag")
      (some (chars "did:plc:abc/ignored"))
      = .ok { hash := chars "#frag", host := chars "did:plc:abc",
              pathname := chars "/app.bsky.feed.post/123",
              search_params := [(chars "q", chars "1")] } := by
  refine ⟨?_, ?_, by rfl⟩
  · intro s po hp
    rcases (parse_inv hp).2.2.1 with h | ⟨t, ht, _, _⟩
    · exact Or.inl h
    · exact Or.inr ⟨t, ht⟩
  · intro s po hp
    rcases (parse_relative_inv hp).2.1 with h | ⟨t, ht, _, _⟩
    · exact Or.inl h
    · exact Or.inr ⟨t, ht⟩

/-- C3 witness. -/
theorem c3_hash_with_marker_witness :
    (chars "#b" : List Char) = [] ∨ ∃ t, (chars "#b" : List Char) = '#' :: t :=
  c3_hash_with_marker.1 (chars "a#b")
    { hash := chars "#b", host := chars "a", pathname := [], search_params := [] } (by rfl)

/-- C4 counterexample: on the AtUri with the empty pathname — the only
candidate for a "zero-segment path" — set_rkey produces "/123", whose first
split piece is the empty string, not the literal "undefined" placeholder. -/
theorem c4_placeholder_counterexample :
    (AtUri.set_rkey { hash := [], host := chars "example.com", pathname := [], search_params := [] } (chars "123")).pathname = chars "/123" ∧
    (splitSep '/' (chars "/123"))[0]? = some [] ∧
    some ([] : List Char) ≠ some (chars "undefined") := by
  refine ⟨by rfl, by rfl, by decide⟩

/-- C4 (amended): splitting a pathname never yields zero pieces, so the
placeholder branch of set_rkey is unreachable; set_rkey overwrites the second
piece when there are at least two, appends the key when there is exactly one,
and on the empty pathname yields "/" ++ key. -/
theorem c4_set_rkey_policy (u : AtUri) (v : List Char) :
    splitSep '/' u.pathname ≠ [] ∧
    (2 ≤ (splitSep '/' u.pathname).length →
      (AtUri.set_rkey u v).pathname = joinSep '/' ((splitSep '/' u.pathname).set 1 v)) ∧
    ((splitSep '/' u.pathname).length = 1 →
      (AtUri.set_rkey u v).pathname = joinSep '/' (splitSep '/' u.pathname ++ [v])) ∧
    (u.pathname = [] → (AtUri.set_rkey u v).pathname = '/' :: v) := by
  refine ⟨splitSep_ne_nil '/' u.pathname, ?_, ?_, ?_⟩
  · intro hlen
    rw [AtUri.set_rkey]
    rw [if_pos (by omega)]
  · intro hlen
    rw [AtUri.set_rkey]
    rw [if_neg (by omega), if_pos (by omega)]
  · intro hpath
    rw [AtUri.set_rkey, hpath]
    rw [show splitSep '/' [] = [[]] from rfl]
    rw [if_neg (by simp), if_pos (by simp)]
    rfl

/-- C4 witness. -/
theorem c4_set_rkey_policy_witness :
    (AtUri.set_rkey { hash := [], host := chars "example.com", pathname := chars "app.bsky.feed.post/123", search_params := [] } (chars "456")).pathname
      = joinSep '/' ((splitSep '/' (chars "app.bsky.feed.post/123")).set 1 (chars "456")) :=
  (c4_set_rkey_policy { hash := [], host := chars "example.com", pathname := chars "app.bsky.feed.post/123", search_params := [] }
    (chars "456")).2.1 (by decide)

/-- C5: set_collection replaces the first path segment: on any pathname of the
two-piece form collection/record-key (both pieces `/`-free) the result is
v/record-key. -/
theorem c5_set_collection (u : AtUri) (c r v : List Char)
    (hc : ∀ x ∈ c, x ≠ '/') (hr : ∀ x ∈ r, x ≠ '/')
    (hpath : u.pathname = c ++ '/' :: r) :
    (AtUri.set_collection u v).pathname = v ++ '/' :: r := by
  rw [AtUri.set_collection, hpath, splitSep_append_sep _ hc, splitSep_no_sep hr]
  rw [if_pos (by simp)]
  rfl

/-- C5 witness: the claim's concrete scenario. -/
theorem c5_set_collection_witness :
    (AtUri.set_collection { hash := [], host := chars "example.com", pathname := chars "app.bsky.feed.post/123", search_params := [] } (chars "app.bsky.feed.like")).pathname
      = chars "app.bsky.feed.like" ++ '/' :: chars "123" :=
  c5_set_collection { hash := [], host := chars "example.com", pathname := chars "app.bsky.feed.post/123", search_params := [] }
    (chars "app.bsky.feed.post") (chars "123") (chars "app.bsky.feed.like")
    (by decide) (by decide) (by rfl)

/-- C1 counterexample to the claim as stated: "a" is accepted by the absolute
parse with empty pathname, but re-parsing its rendering "at://a/" yields
pathname "/" — not equal in all four fields. -/
theorem c1_claim_counterexample :
    parse (chars "a") = some { hash := [], host := chars "a", pathname := [], search_params := [] } ∧
    AtUri.to_string { hash := [], host := chars "a", pathname := [], search_params := [] } = chars "at://a/" ∧
    parse (chars "at://a/") = some { hash := [], host := chars "a", pathname := chars "/", search_params := [] } ∧
    (chars "/" : List Char) ≠ [] := by
  refine ⟨by rfl, by rfl, by rfl, by decide⟩

/-- C1 (amended): re-parsing the rendering of any absolutely parsed AtUri is
again accepted, with host and search_params equal; pathname is equal except
that an empty pathname renders (idempotently) as "/", and a non-empty hash
comes back with one more leading `#` (the renderer's unconditional marker). -/
theorem c1_round_trip {s : List Char} {u : AtUri} (h : AtUri.new s none = .ok u) :
    parse (AtUri.to_string u) = some
      { hash := if u.hash = [] then [] else '#' :: u.hash,
        host := u.host,
        pathname := if u.pathname = [] then chars "/" else u.pathname,
        search_params := u.search_params } := by
  rw [AtUri.new] at h
  cases hp : parse s with
  | none => rw [hp] at h; cases h
  | some r =>
    rw [hp] at h
    injection h with h
    obtain ⟨hh, hpa, hf, _⟩ := parse_inv hp
    subst h
    exact parse_to_string hh hpa hf

/-- C1 witness. -/
theorem c1_round_trip_witness :
    parse (AtUri.to_string { hash := [], host := chars "a", pathname := [], search_params := [] })
      = some { hash := if ([] : List Char) = [] then [] else '#' :: ([] : List Char),
               host := chars "a",
               pathname := if ([] : List Char) = [] then chars "/" else [],
               search_params := [] } :=
  @c1_round_trip (chars "at://a")
    { hash := [], host := chars "a", pathname := [], search_params := [] } (by rfl)

/-- C6: with a base, `new` fails with the invalid-base message exactly when
the base does not parse absolutely, fails with the invalid-path message
exactly when the base parses but the uri does not parse relatively (the two
messages never coincide), and on success takes host from the base and the
other three fields from the relative parse of the uri. -/
theorem c6_construct_with_base (uri base : List Char) :
    (parse base = none → AtUri.new uri (some base) = .error (invalidUriMsg base)) ∧
    (∀ pb : ParsedOutput, parse base = some pb → parse_relative uri = none →
      AtUri.new uri (some base) = .error (invalidPathMsg uri)) ∧
    (∀ (pb : ParsedOutput) (rp : ParsedRelativeOutput),
      parse base = some pb → parse_relative uri = some rp →
      AtUri.new uri (some base) = .ok { hash := rp.hash, host := pb.host, pathname := rp.pathname, search_params := rp.search_params }) ∧
    invalidUriMsg base ≠ invalidPathMsg uri := by
  refine ⟨?_, ?_, ?_, msgs_ne base uri⟩
  · intro hb
    rw [AtUri.new, hb]
  · intro pb hb hu
    rw [AtUri.new, hb, hu]
  · intro pb rp hb hu
    rw [AtUri.new, hb, hu]

/-- C6 witness: the success branch on a concrete base and relative uri. -/
theorem c6_construct_with_base_witness :
    AtUri.new (chars "/x/1?q=1#f") (some (chars "did:plc:abc/ignored"))
      = .ok { hash := chars "#f", host := chars "did:plc:abc",
              pathname := chars "/x/1", search_params := [(chars "q", chars "1")] } :=
  (c6_construct_with_base (chars "/x/1?q=1#f") (chars "did:plc:abc/ignored")).2.2.1
    { hash := [], host := chars "did:plc:abc", pathname := chars "/ignored",
      search_params := [] }
    { hash := chars "#f", pathname := chars "/x/1",
      search_params := [(chars "q", chars "1")] }
    (by rfl) (by rfl)

/-- C7: the encoder's output is the length-prefixed header record followed by
one length-prefixed block record per supplied block in the order supplied:
its record stream is exactly `headerPayload root :: blocks.map blockBytes`,
the header record declares version 1 with roots exactly `[root]`, the block
records decode back to the supplied blocks in order, and for the empty
sequence the output is the header record alone. -/
theorem c7_car_structure (root : Cid) (blocks : List (Cid × List Nat))
    (hlen : (cidBytes root).length + 1 < 0x10000000000000000) :
    recordStream (read_car_bytes root blocks)
      = some (headerPayload root :: blocks.map fun b => blockBytes b) ∧
    decodeHeader (headerPayload root) = some (1, [root]) ∧
    (blocks.map fun b => blockBytes b).mapM decodeBlockRecord = some blocks ∧
    recordStream (read_car_bytes root []) = some [headerPayload root] := by
  refine ⟨recordStream_read_car_bytes root blocks,
    decodeHeader_headerPayload root hlen,
    mapM_decodeBlockRecord blocks, ?_⟩
  have h := recordStream_read_car_bytes root []
  rwa [List.map_nil] at h

/-- C7 witness. -/
theorem c7_car_structure_witness :
    recordStream (read_car_bytes { version := 1, codec := 0x71, mh_type := 0x12, digest := [1, 2] } [])
      = some [headerPayload { version := 1, codec := 0x71, mh_type := 0x12, digest := [1, 2] }] :=
  (c7_car_structure { version := 1, codec := 0x71, mh_type := 0x12, digest := [1, 2] } []
    (by decide)).2.2.2

/-- C8: framing round-trip — a conformant reader applied to the encoder's
output recovers exactly the root and the supplied (identifier, bytes) pairs
in the order supplied. -/
theorem c8_car_round_trip (root : Cid) (blocks : List (Cid × List Nat))
    (hlen : (cidBytes root).length + 1 < 0x10000000000000000) :
    decodeCar (read_car_bytes root blocks) = some (root, blocks) := by
  rw [decodeCar, recordStream_read_car_bytes]
  show (decodeHeader (headerPayload root)).bind _ = _
  rw [decodeHeader_headerPayload root hlen, Option.some_bind]
  show (((blocks.map fun b => blockBytes b).mapM decodeBlockRecord).map fun bl => (root, bl)) = _
  rw [mapM_decodeBlockRecord, Option.map_some']

/-- C8 witness: the spec's two-block example shape. -/
theorem c8_car_round_trip_witness :
    decodeCar (read_car_bytes { version := 1, codec := 0x71, mh_type := 0x12, digest := [1, 2] }
      [({ version := 1, codec := 0x55, mh_type := 0x12, digest := [3] }, [9, 8, 7]),
       ({ version := 1, codec := 0x55, mh_type := 0x12, digest := [4] }, [6, 5])])
      = some ({ version := 1, codec := 0x71, mh_type := 0x12, digest := [1, 2] },
        [({ version := 1, codec := 0x55, mh_type := 0x12, digest := [3] }, [9, 8, 7]),
         ({ version := 1, codec := 0x55, mh_type := 0x12, digest := [4] }, [6, 5])]) :=
  c8_car_round_trip { version := 1, codec := 0x71, mh_type := 0x12, digest := [1, 2] }
    [({ version := 1, codec := 0x55, mh_type := 0x12, digest := [3] }, [9, 8, 7]),
     ({ version := 1, codec := 0x55, mh_type := 0x12, digest := [4] }, [6, 5])]
    (by decide)

/-- C9 counterexample to the claim as stated: "a=b" is already canonical, but
set_search("a=b") absorbs it into the dummy URL's host (no `?` is present),
leaving empty search_params, and search then returns "" rather than "a=b". -/
theorem c9_set_search_counterexample :
    AtUri.set_search { hash := [], host := chars "a", pathname := [], search_params := [] } (chars "a=b")
      = some { hash := [], host := chars "a", pathname := [], search_params := [] } ∧
    AtUri.get_search { hash := [], host := chars "a", pathname := [], search_params := [] } = some [] ∧
    ([] : List Char) ≠ chars "a=b" := by
  refine ⟨by rfl, by rfl, by decide⟩

/-- C9 (amended): for a `?`-led canonical query — a `?` followed by the
serialization of any pair list ps —
for any pair list ps — set_search succeeds, stores exactly ps (preserving the
input pair order), and search returns exactly the canonical query again. -/
theorem c9_set_get_fixed_point (u : AtUri) (ps : List (List Char × List Char)) :
    AtUri.set_search u ('?' :: serializePairs ps)
      = some { u with search_params := ps } ∧
    AtUri.get_search { u with search_params := ps } = some (serializePairs ps) := by
  constructor
  · rw [AtUri.set_search]
    rw [dummyUrlQuery_qmark (serializePairs ps) (by
      intro c hc hce
      subst hce
      exact absurd (serializePairs_safe ps '#' hc).1 (by decide))]
    show some { u with search_params := formDecodePairs (canonicalizeQuery (serializePairs ps)) }
      = _
    rw [pairs_of_serialized ps]
  · rfl

/-- C10: `make` with an authority, no collection and a record key yields
pathname `/` ++ rkey; on the result get_collection returns the record key and
get_rkey returns the empty string. -/
theorem c10_make_without_collection (authority rkey : List Char)
    (hs : hostShaped authority) (hrk : ∀ c ∈ rkey, pathChar c = true)
    (hsl : ∀ c ∈ rkey, c ≠ '/') :
    AtUri.make authority none (some rkey)
      = .ok { hash := [], host := authority, pathname := '/' :: rkey, search_params := [] } ∧
    AtUri.get_collection { hash := [], host := authority, pathname := '/' :: rkey, search_params := [] } = rkey ∧
    AtUri.get_rkey { hash := [], host := authority, pathname := '/' :: rkey, search_params := [] } = [] := by
  have hsplit : splitSep '/' ('/' :: rkey) = [[], rkey] := by
    have h := @splitSep_append_sep '/' [] rkey (by intro c hc; cases hc)
    rw [List.nil_append] at h
    rw [h, splitSep_no_sep hsl]
  refine ⟨?_, ?_, ?_⟩
  · show AtUri.new (authority ++ '/' :: rkey) none = _
    rw [AtUri.new, parse_make authority rkey hs hrk hsl]
  · rw [AtUri.get_collection, hsplit]
    rfl
  · rw [AtUri.get_rkey, hsplit]
    rfl

/-- C10 witness: the record key occupies the collection position. -/
theorem c10_make_without_collection_witness :
    AtUri.make (chars "example.com") none (some (chars "123"))
      = .ok { hash := [], host := chars "example.com", pathname := '/' :: chars "123", search_params := [] } ∧
    AtUri.get_collection { hash := [], host := chars "example.com", pathname := '/' :: chars "123", search_params := [] } = chars "123" :=
  ⟨(c10_make_without_collection (chars "example.com") (chars "123")
      (Or.inr ⟨'e', chars "xample.com", rfl, by decide, by decide⟩)
      (by decide) (by decide)).1,
   (c10_make_without_collection (chars "example.com") (chars "123")
      (Or.inr ⟨'e', chars "xample.com", rfl, by decide, by decide⟩)
      (by decide) (by decide)).2.1⟩
